import Mathlib

/-!
Verification of the `hllpp` HyperLogLog++ estimator (Go) against its
natural-language specification.

The Go source is shallowly embedded: machine integers (uint8/uint32/uint64)
become `Nat` with explicit `% 2^8`, `% 2^32`, `% 2^64` wherever Go overflow
semantics matter; byte slices become `List Nat` whose elements are < 256 by
hypothesis or construction; the hash function is an external collaborator, so
`Add` takes the 64-bit hash value directly.  All definitions follow the Go
source of `hllpp.go`, `sparse.go` and `marshal.go`; deviations forced by the
embedding (fuel for cursor loops, a concrete sorting algorithm for Go's
`sort.Sort` contract) are noted at each definition.
-/

namespace HLLPP

/-! ## Bit operations (hllpp.go) -/

/-- `sliceBits64(x, high, low)` from hllpp.go: slice out the inclusive bit
section `[high..low]` of a uint64: `(x << (63-high)) >> (low + (63-high))`,
with the left shift wrapping modulo `2^64`. -/
def sliceBits64 (x high low : Nat) : Nat :=
  ((x <<< (63 - high)) % 2 ^ 64) >>> (low + (63 - high))

/-- `sliceBits32(x, high, low)` from hllpp.go, on uint32. -/
def sliceBits32 (x high low : Nat) : Nat :=
  ((x <<< (31 - high)) % 2 ^ 32) >>> (low + (31 - high))

/-- Helper for `rho`: count, among bits `n-1 .. 0` of `x` taken from the top
down, how many leading bits are zero before the first set bit.  This is the
loop `for bit := 1<<63; bit&x == 0 && bit > 0; bit >>= 1 { z++ }` of
hllpp.go's `rho`, unrolled as structural recursion on the bit position. -/
def clzAux (x : Nat) : Nat → Nat
  | 0 => 0
  | n + 1 => if x >>> n % 2 = 1 then 0 else 1 + clzAux x n

/-- `rho(x)` from hllpp.go: number of leading zeros of the 64-bit word `x`
plus 1 (so `rho 0 = 65`). -/
def rho (x : Nat) : Nat := clzAux x 64 + 1

/-- `mask(numOnes, shift)` from hllpp.go: `((1 << numOnes) - 1) << shift` in
uint32 arithmetic. -/
def mask (numOnes shift : Nat) : Nat :=
  ((2 ^ numOnes - 1) <<< shift) % 2 ^ 32

/-! ## Hash encode/decode (hllpp.go) -/

/-- `encodeHash` from hllpp.go, parametrised by the receiver's `p` and `p'`
fields.  `uint32(...)` casts become `% 2^32`; the uint8 shift `r << 1`
becomes `% 2^8`; Go's `1<<h.pp - 1` parses as `(1 <<< pp) - 1`. -/
def encodeHash (p pp x : Nat) : Nat :=
  if sliceBits64 x (63 - p) (64 - pp) = 0 then
    let r := rho (((sliceBits64 x (63 - pp) 0 <<< pp) % 2 ^ 64) ||| (2 ^ pp - 1))
    ((sliceBits64 x 63 (64 - pp) <<< 7) ||| ((r <<< 1) % 2 ^ 8) ||| 1) % 2 ^ 32
  else
    (sliceBits64 x 63 (64 - pp) <<< 1) % 2 ^ 32

/-- `getIndex` from hllpp.go: index of encoded hash `k` with respect to
precision `pq` (the caller's `p` argument). -/
def getIndex (pp k pq : Nat) : Nat :=
  if k % 2 = 1 then
    sliceBits32 k (6 + pp) (1 + 6 + pp - pq)
  else
    sliceBits32 k pp (1 + pp - pq)

/-- `decodeHash` from hllpp.go: index with respect to `pq`, rank with respect
to `p`.  The uint8 addition in the flagged branch becomes `% 2^8`. -/
def decodeHash (p pp k pq : Nat) : Nat × Nat :=
  let r :=
    if k % 2 = 1 then
      ((sliceBits32 k 6 1) % 2 ^ 8 + (pp - p)) % 2 ^ 8
    else
      rho (((k ||| 1) <<< (64 - (pp + 1) + p)) % 2 ^ 64)
  (getIndex pp k pq, r)


/-! ## Packed register array (hllpp.go) -/

/-- `setRegister` from hllpp.go.  Byte slices become `List Nat`; Go's
in-place element update becomes `List.set`.  The uint8 complement
`^byte(mask(...))` becomes `255 - mask ... % 2^8` and uint8 shifts of the
`rho` argument wrap modulo `2^8`. -/
def setRegister (data : List Nat) (bitsPerRegister idx rho : Nat) : List Nat :=
  let bitIdx := idx * bitsPerRegister
  let byteOffset := bitIdx / 8
  let bitOffset := bitIdx % 8
  if bitsPerRegister ≤ 8 - bitOffset then
    let leftShift := 8 - bitsPerRegister - bitOffset
    let b := data.getD byteOffset 0
    data.set byteOffset
      ((b &&& (255 - mask bitsPerRegister leftShift % 2 ^ 8)) |||
        ((rho <<< leftShift) % 2 ^ 8))
  else
    let numBitsInFirstByte := bitsPerRegister - (8 - bitOffset)
    let b0 := data.getD byteOffset 0
    let data1 := data.set byteOffset
      ((b0 &&& (255 - mask (8 - bitOffset) 0 % 2 ^ 8)) ||| (rho >>> numBitsInFirstByte))
    let b1 := data1.getD (byteOffset + 1) 0
    data1.set (byteOffset + 1)
      ((b1 &&& (255 - mask numBitsInFirstByte (8 - numBitsInFirstByte) % 2 ^ 8)) |||
        ((rho <<< (8 - numBitsInFirstByte)) % 2 ^ 8))

/-- `getRegister` from hllpp.go.  In the straddling branch the uint8 shift
`data[byteOffset] << numBitsInFirstByte` wraps modulo `2^8`. -/
def getRegister (data : List Nat) (bitsPerRegister idx : Nat) : Nat :=
  let bitIdx := idx * bitsPerRegister
  let byteOffset := bitIdx / 8
  let bitOffset := bitIdx % 8
  if bitsPerRegister ≤ 8 - bitOffset then
    (data.getD byteOffset 0 >>> (8 - bitOffset - bitsPerRegister)) &&&
      (mask bitsPerRegister 0 % 2 ^ 8)
  else
    let numBitsInFirstByte := bitsPerRegister - (8 - bitOffset)
    let rho := (data.getD byteOffset 0 <<< numBitsInFirstByte) % 2 ^ 8
    (rho ||| (data.getD (byteOffset + 1) 0 >>> (8 - numBitsInFirstByte))) &&&
      (mask bitsPerRegister 0 % 2 ^ 8)

/-! ## Shape of `encodeHash` -/

/-- The rank `r` computed inside `encodeHash`'s flagged branch (the local
`r := rho((sliceBits64(x, 63-pp, 0) << pp) | (1<<pp - 1))`). -/
def sparseRank (pp x : Nat) : Nat :=
  rho (((sliceBits64 x (63 - pp) 0 <<< pp) % 2 ^ 64) ||| (2 ^ pp - 1))

/-! ## Sparse store (sparse.go) and Go varints (encoding/binary) -/

/-- Modelled from Go's standard library `binary.PutUvarint` (LEB128):
little-endian 7-bit groups with continuation bit `0x80`.  Fuel-structured
for executability; 10 groups cover any uint64 (the values written by this
package are uint32 deltas, at most 5 groups). -/
def putUvarintFuel : Nat → Nat → List Nat
  | 0, x => [x % 128]
  | f + 1, x => if x < 128 then [x] else (x % 128 + 128) :: putUvarintFuel f (x / 128)

def putUvarint (x : Nat) : List Nat := putUvarintFuel 10 x

/-- Modelled from Go's `binary.Uvarint`: `(value, bytesRead)`, with
`(0, 0)` when the buffer ends inside a varint.  (Go's 64-bit overflow
branch is unreachable for the uint32 streams of this package.) -/
def uvarint : List Nat → Nat × Nat
  | [] => (0, 0)
  | b :: rest =>
    if b < 128 then (b, 1)
    else
      match uvarint rest with
      | (v, n) => if n = 0 then (0, 0) else (b % 128 + v * 128, n + 1)

/-- The value sequence produced by `sparseReader` (sparse.go): repeatedly
`Uvarint` the remaining bytes, adding each delta to the running uint32
value.  Fuel-structured; for the well-formed streams written by
`sparseWriter` every varint consumes at least one byte, so
`data.length + 1` steps suffice. -/
def readList : Nat → List Nat → Nat → List Nat
  | 0, _, _ => []
  | _ + 1, [], _ => []
  | fuel + 1, rem, lastVal =>
    let vn := uvarint rem
    let v32 := (vn.1 % 2 ^ 32 + lastVal) % 2 ^ 32
    v32 :: readList fuel (rem.drop vn.2) v32

/-- All values decoded from a sparse store byte buffer. -/
def decodeStream (data : List Nat) : List Nat := readList (data.length + 1) data 0

/-- `sparseWriter` (sparse.go); the Go scratch field `varIntBuf` is
omitted. -/
structure SparseWriter where
  data : List Nat
  lastVal : Nat
  hasCurrVal : Bool
  currVal : Nat
  currIdx : Nat
  currRho : Nat
  length : Nat

def newSparseWriter : SparseWriter :=
  { data := [], lastVal := 0, hasCurrVal := false, currVal := 0, currIdx := 0,
    currRho := 0, length := 0 }

/-- `sparseWriter.commit`: write the uint32 delta `currVal - lastVal`
(wrapping subtraction) as a varint. -/
def SparseWriter.commit (w : SparseWriter) : SparseWriter :=
  { w with
    data := w.data ++ putUvarint ((w.currVal + 2 ^ 32 - w.lastVal) % 2 ^ 32)
    lastVal := w.currVal
    length := w.length + 1
    hasCurrVal := false }

/-- `sparseWriter.Append` (sparse.go). -/
def SparseWriter.append (w : SparseWriter) (k idx rho : Nat) : SparseWriter :=
  if w.hasCurrVal then
    if idx = w.currIdx then
      if w.currRho < rho then { w with currRho := rho, currVal := k }
      else w
    else
      let w2 := w.commit
      { w2 with hasCurrVal := true, currVal := k, currIdx := idx, currRho := rho }
  else
    { w with hasCurrVal := true, currVal := k, currIdx := idx, currRho := rho }

/-- `sparseWriter.Bytes`/`Len` both first commit any staged entry;
this is that final commit. -/
def SparseWriter.flush (w : SparseWriter) : SparseWriter :=
  if w.hasCurrVal then w.commit else w

/-- Insertion into a sorted list.  Models the contract of Go's
`sort.Sort(uint32Slice)` in `flushTmpSet`: the elements are totally
ordered numbers, so the sorted permutation — the result of any sorting
algorithm — is unique. -/
def insertSorted (v : Nat) : List Nat → List Nat
  | [] => [v]
  | u :: us => if v ≤ u then v :: u :: us else u :: insertSorted v us

def sortU32 (l : List Nat) : List Nat := l.foldr insertSorted []

/-- The merge loop of `flushTmpSet` (sparse.go) over the decoded store
values (`ss`, the `sparseReader` side) and the sorted `tmpSet` (`ts`).
Fuel-structured: every iteration consumes at least one element. -/
def mergeLoop (p pp : Nat) : Nat → SparseWriter → List Nat → List Nat → SparseWriter
  | 0, w, _, _ => w
  | _ + 1, w, [], [] => w
  | fuel + 1, w, [], t :: ts =>
    let ir := decodeHash p pp t pp
    mergeLoop p pp fuel (w.append t ir.1 ir.2) [] ts
  | fuel + 1, w, s :: ss, [] =>
    let ir := decodeHash p pp s pp
    mergeLoop p pp fuel (w.append s ir.1 ir.2) ss []
  | fuel + 1, w, s :: ss, t :: ts =>
    let sir := decodeHash p pp s pp
    let tir := decodeHash p pp t pp
    if sir.1 < tir.1 then mergeLoop p pp fuel (w.append s sir.1 sir.2) ss (t :: ts)
    else if tir.1 < sir.1 then mergeLoop p pp fuel (w.append t tir.1 tir.2) (s :: ss) ts
    else if tir.2 < sir.2 then mergeLoop p pp fuel (w.append s sir.1 sir.2) ss ts
    else mergeLoop p pp fuel (w.append t tir.1 tir.2) ss ts

/-! ## The sketch state machine (hllpp.go) -/

/-- The `HLLPP` struct (hllpp.go).  The `hasher` field is an external
collaborator and is omitted; `Add` takes the 64-bit hash value directly. -/
structure HLLPP where
  data : List Nat
  tmpSet : List Nat
  sparse : Bool
  sparseLength : Nat
  bitsPerRegister : Nat
  p : Nat
  m : Nat
  pp : Nat
  mp : Nat
  defaultHasher : Bool
deriving Repr, DecidableEq

/-- `flushTmpSet` (sparse.go): sort `tmpSet`, two-way merge with the
decoded store through a `sparseWriter`, install the result. -/
def flushTmpSet (h : HLLPP) : HLLPP :=
  if h.tmpSet = [] then h
  else
    let tmp := sortU32 h.tmpSet
    let ss := decodeStream h.data
    let w := (mergeLoop h.p h.pp (ss.length + tmp.length + 1) newSparseWriter ss tmp).flush
    { h with data := w.data, sparseLength := w.length, tmpSet := [] }

/-- The loop body of `toNormal` (hllpp.go): write decoded `(idx, rho)`
maxima into a fresh register array, aborting (`none`) when a rho above 31
is met at width 5 — the Go original then restarts itself at width 6. -/
def toNormalScan (p pp bits : Nat) : List Nat → List Nat → Option (List Nat)
  | [], nd => some nd
  | k :: rest, nd =>
    let ir := decodeHash p pp k p
    if 31 < ir.2 ∧ bits = 5 then none
    else toNormalScan p pp bits rest
      (if getRegister nd bits ir.1 < ir.2 then setRegister nd bits ir.1 ir.2 else nd)

/-- `toNormal` (hllpp.go).  The Go original recurses once after setting
`bitsPerRegister = 6`; here that restart is the second scan, which cannot
abort again. -/
def toNormal (h : HLLPP) : HLLPP :=
  let bits := if h.bitsPerRegister = 0 then 5 else h.bitsPerRegister
  let vals := decodeStream h.data
  match toNormalScan h.p h.pp bits vals (List.replicate (h.m * bits / 8) 0) with
  | some nd =>
    { h with data := nd, tmpSet := [], sparse := false, bitsPerRegister := bits }
  | none =>
    match toNormalScan h.p h.pp 6 vals (List.replicate (h.m * 6 / 8) 0) with
    | some nd =>
      { h with data := nd, tmpSet := [], sparse := false, bitsPerRegister := 6 }
    | none => h

/-- `Add` (hllpp.go), with `x` the 64-bit output of the hasher. -/
def Add (h : HLLPP) (x : Nat) : HLLPP :=
  if h.sparse then
    let h1 := { h with tmpSet := h.tmpSet ++ [encodeHash h.p h.pp x] }
    if 6 * h1.m / 4 ≤ 4 * h1.tmpSet.length * 8 then
      let h2 := flushTmpSet h1
      if 6 * h2.m ≤ h2.data.length * 8 then toNormal h2 else h2
    else h1
  else
    let idx := sliceBits64 x 63 (64 - h.p)
    let r := rho ((x <<< h.p) % 2 ^ 64 ||| 1 <<< (h.p - 1))
    let h1 :=
      if 31 < r ∧ h.bitsPerRegister = 5 then
        { h with
          bitsPerRegister := 6
          data := (List.range h.m).foldl
            (fun nd i => setRegister nd 6 i (getRegister h.data 5 i))
            (List.replicate (h.m * 6 / 8) 0) }
      else h
    if getRegister h1.data h1.bitsPerRegister idx < r then
      { h1 with data := setRegister h1.data h1.bitsPerRegister idx r }
    else h1

/-- The state effect of `Count` (hllpp.go): in sparse mode it flushes
`tmpSet` and otherwise leaves the sketch unchanged.  (The numeric estimate
itself is floating point and is not modelled.) -/
def countStep (h : HLLPP) : HLLPP :=
  if h.sparse then flushTmpSet h else h

/-- `Config` (hllpp.go); the hasher is summarised by whether one was
supplied and its `Size()`. -/
structure Config where
  hasHasher : Bool
  hasherSize : Nat
  precision : Nat
  sparsePrecision : Nat

/-- `NewWithConfig` (hllpp.go); the default SHA-1 hasher has `Size()` 20. -/
def NewWithConfig (c : Config) : Option HLLPP :=
  let precision := if c.precision = 0 then 14 else c.precision
  let sparsePrecision := if c.sparsePrecision = 0 then 25 else c.sparsePrecision
  let hasherSize := if c.hasHasher then c.hasherSize else 20
  if precision < 4 ∨ 16 < precision ∨ sparsePrecision < precision ∨
      25 < sparsePrecision then
    none
  else if hasherSize < 8 then
    none
  else
    some
      { data := [], tmpSet := [], sparse := true, sparseLength := 0,
        bitsPerRegister := 0, p := precision, m := 2 ^ precision,
        pp := sparsePrecision, mp := 2 ^ sparsePrecision,
        defaultHasher := !c.hasHasher }

/-- `New` (hllpp.go): default configuration `p = 14`, `p' = 25`, SHA-1. -/
def New : Option HLLPP :=
  NewWithConfig
    { hasHasher := false, hasherSize := 0, precision := 0,
      sparsePrecision := 0 }

/-! ## Serialization (marshal.go) -/

def putU16 (x : Nat) : List Nat := [x / 2 ^ 8 % 256, x % 256]

def putU32 (x : Nat) : List Nat :=
  [x / 2 ^ 24 % 256, x / 2 ^ 16 % 256, x / 2 ^ 8 % 256, x % 256]

def readU16 (data : List Nat) (o : Nat) : Nat :=
  data.getD o 0 * 2 ^ 8 + data.getD (o + 1) 0

def readU32 (data : List Nat) (o : Nat) : Nat :=
  data.getD o 0 * 2 ^ 24 + data.getD (o + 1) 0 * 2 ^ 16 +
    data.getD (o + 2) 0 * 2 ^ 8 + data.getD (o + 3) 0

/-- `Marshal` (marshal.go) first flushes `tmpSet` when sparse; this is the
state the receiver is left in (and the state the byte format describes). -/
def marshalState (h : HLLPP) : HLLPP := if h.sparse then flushTmpSet h else h

/-- The bytes emitted by `Marshal` (marshal.go) for a sketch whose
`tmpSet` has already been flushed: version, total length (uint32 cast),
flags (bit 0 sparse, bit 1 default hasher), `p`, `p'`, `sparseLength`,
`bitsPerRegister`, payload. -/
def marshalBytes (h : HLLPP) : List Nat :=
  putU16 1 ++ putU32 ((15 + h.data.length) % 2 ^ 32) ++
    putU16 ((if h.sparse then 1 else 0) + (if h.defaultHasher then 2 else 0)) ++
    [h.p % 256] ++ [h.pp % 256] ++ putU32 (h.sparseLength % 2 ^ 32) ++
    [h.bitsPerRegister % 256] ++ h.data

def Marshal (h : HLLPP) : List Nat := marshalBytes (marshalState h)

/-- `unmarshal` (marshal.go); error strings abbreviate the Go messages. -/
def unmarshal (data : List Nat) (hasherSize : Nat) : Except String HLLPP :=
  if data.length < 15 then .error "data too short"
  else if readU16 data 0 ≠ 1 then .error "unknown version"
  else if readU32 data 2 ≠ data.length then .error "length mismatch"
  else
    match
      NewWithConfig
        { hasHasher := true, hasherSize := hasherSize,
          precision := data.getD 8 0, sparsePrecision := data.getD 9 0 }
    with
    | none => .error "invalid precision or hasher"
    | some h =>
      .ok { h with
        sparse := decide (0 < readU16 data 6 &&& 1),
        defaultHasher := decide (0 < readU16 data 6 &&& 2),
        sparseLength := readU32 data 10,
        bitsPerRegister := data.getD 14 0,
        data := data.drop 15 }

/-- `Unmarshal` (marshal.go): deserialize with the default SHA-1 hasher. -/
def Unmarshal (data : List Nat) : Except String HLLPP :=
  match unmarshal data 20 with
  | .error e => .error e
  | .ok h =>
    if !h.defaultHasher then .error "must unmarshal using UnmarshalWithHasher"
    else .ok h

/-- `UnmarshalWithHasher` (marshal.go). -/
def UnmarshalWithHasher (data : List Nat) (hasherSize : Nat) : Except String HLLPP :=
  match unmarshal data hasherSize with
  | .error e => .error e
  | .ok h =>
    if h.defaultHasher then .error "must unmarshal using Unmarshal"
    else .ok h

/-! ## Reachable sketches -/

/-- Sketches reachable from `New`/`NewWithConfig` by any sequence of `Add`
and `Count` calls. -/
inductive Reach : HLLPP → Prop where
  | init (c : Config) (h : HLLPP) : NewWithConfig c = some h → Reach h
  | add (h : HLLPP) (x : Nat) : Reach h → x < 2 ^ 64 → Reach (Add h x)
  | count (h : HLLPP) : Reach h → Reach (countStep h)

/-- Sketches reachable by `Add` calls alone. -/
inductive ReachAdd : HLLPP → Prop where
  | init (c : Config) (h : HLLPP) : NewWithConfig c = some h → ReachAdd h
  | add (h : HLLPP) (x : Nat) : ReachAdd h → x < 2 ^ 64 → ReachAdd (Add h x)


/-! ## Verification measures and the reachability invariant -/

/-- Committed entries plus the staged one: the final `Len()` of the writer. -/
def SparseWriter.wlen (w : SparseWriter) : Nat :=
  w.length + (if w.hasCurrVal then 1 else 0)

/-- Byte-size budget: each commit appends at most 11 varint bytes. -/
def SparseWriter.dlen (w : SparseWriter) : Nat :=
  w.data.length + 11 * (if w.hasCurrVal then 1 else 0)

/-- State invariant maintained by `NewWithConfig` and `Add` (`Count` breaks
the sparse size bound, see the C4 counterexample). -/
def Inv (h : HLLPP) : Prop :=
  4 ≤ h.p ∧ h.p ≤ 16 ∧ h.p ≤ h.pp ∧ h.pp ≤ 25 ∧
    h.m = 2 ^ h.p ∧ h.mp = 2 ^ h.pp ∧ h.sparseLength ≤ 8 * h.m ∧
    (h.sparse = true →
      8 * h.data.length < 6 * h.m ∧ h.bitsPerRegister = 0 ∧
        32 * h.tmpSet.length < 6 * h.m / 4 + 32) ∧
    (h.sparse = false →
      (h.bitsPerRegister = 5 ∨ h.bitsPerRegister = 6) ∧
        h.data.length = h.m * h.bitsPerRegister / 8 ∧ h.tmpSet = [])

/-! ## Bridge lemmas between bitwise operations and `/`, `%` arithmetic -/

theorem testBit_mul_pow_add (a b s k : Nat) (hb : b < 2 ^ s) :
    Nat.testBit (a * 2 ^ s + b) k =
      if k < s then Nat.testBit b k else Nat.testBit a (k - s) := by
  rcases Nat.lt_or_ge k s with h | h
  · rw [if_pos h, Nat.testBit_to_div_mod, Nat.testBit_to_div_mod]
    obtain ⟨t, rfl⟩ : ∃ t, s = k + 1 + t := ⟨s - k - 1, by omega⟩
    have hs : (2:Nat) ^ (k + 1 + t) = 2 ^ (t + 1) * 2 ^ k := by
      rw [← pow_add]; congr 1; omega
    rw [hs, ← mul_assoc, mul_comm (a * 2 ^ (t + 1)) (2 ^ k),
      Nat.mul_add_div (Nat.pos_pow_of_pos k (by norm_num))]
    have h2 : a * 2 ^ (t + 1) = 2 * (a * 2 ^ t) := by ring
    rw [h2, Nat.mul_add_mod]
  · rw [if_neg (Nat.not_lt.mpr h), Nat.testBit_to_div_mod, Nat.testBit_to_div_mod]
    obtain ⟨t, rfl⟩ : ∃ t, k = s + t := ⟨k - s, by omega⟩
    have hs : (2:Nat) ^ (s + t) = 2 ^ s * 2 ^ t := by rw [← pow_add]
    rw [hs, ← Nat.div_div_eq_div_mul, mul_comm a (2 ^ s),
      Nat.mul_add_div (Nat.pos_pow_of_pos s (by norm_num)),
      Nat.div_eq_of_lt hb, Nat.add_zero]
    have h9 : s + t - s = t := by omega
    rw [h9]

theorem testBit_mul_pow (a s k : Nat) :
    Nat.testBit (a * 2 ^ s) k = if k < s then false else Nat.testBit a (k - s) := by
  have h := testBit_mul_pow_add a 0 s k (Nat.pos_pow_of_pos s (by norm_num))
  simpa using h

/-- Bitwise-or of disjoint parts is addition: `(a <<< s) ||| b = a * 2^s + b`
when `b < 2^s`. -/
theorem lor_mul_pow_add (a b s : Nat) (hb : b < 2 ^ s) :
    (a * 2 ^ s) ||| b = a * 2 ^ s + b := by
  apply Nat.eq_of_testBit_eq
  intro k
  rw [Nat.testBit_lor, testBit_mul_pow_add a b s k hb, testBit_mul_pow a s k]
  rcases Nat.lt_or_ge k s with h | h
  · simp [h]
  · have hbk : Nat.testBit b k = false :=
      Nat.testBit_lt_two_pow (lt_of_lt_of_le hb (Nat.pow_le_pow_right (by norm_num) h))
    simp [Nat.not_lt.mpr h, hbk]

/-- Or of two multiples of `2^s` plus a low part below `2^s`. -/
theorem lor_structured (a b c s : Nat) (hc : c < 2 ^ s) :
    (a * 2 ^ s + c) ||| (b * 2 ^ s) = (a ||| b) * 2 ^ s + c := by
  apply Nat.eq_of_testBit_eq
  intro k
  rw [Nat.testBit_lor, testBit_mul_pow_add a c s k hc, testBit_mul_pow b s k,
    testBit_mul_pow_add _ c s k hc]
  rcases Nat.lt_or_ge k s with h | h
  · simp [h]
  · simp [Nat.not_lt.mpr h, Nat.testBit_lor]

/-- And with a contiguous mask `(2^a - 1) <<< s` extracts the field. -/
theorem land_mul_pow (x a s : Nat) :
    x &&& ((2 ^ a - 1) * 2 ^ s) = x / 2 ^ s % 2 ^ a * 2 ^ s := by
  apply Nat.eq_of_testBit_eq
  intro k
  rw [Nat.testBit_land, testBit_mul_pow (2 ^ a - 1) s k,
    testBit_mul_pow (x / 2 ^ s % 2 ^ a) s k]
  rcases Nat.lt_or_ge k s with h | h
  · simp [h]
  · rw [if_neg (Nat.not_lt.mpr h), if_neg (Nat.not_lt.mpr h),
      Nat.testBit_two_pow_sub_one, Nat.testBit_mod_two_pow,
      ← Nat.shiftRight_eq_div_pow, Nat.testBit_shiftRight]
    have : s + (k - s) = k := by omega
    rw [this, Bool.and_comm]

/-- And with a split mask (high field at `s`, low `lo` ones). -/
theorem land_split_mask (x a s lo : Nat) (hlo : lo ≤ s) :
    x &&& ((2 ^ a - 1) * 2 ^ s + (2 ^ lo - 1)) =
      x / 2 ^ s % 2 ^ a * 2 ^ s + x % 2 ^ lo := by
  have hlt : (2:Nat) ^ lo - 1 < 2 ^ s :=
    lt_of_lt_of_le (Nat.sub_lt (Nat.pos_pow_of_pos lo (by norm_num)) one_pos)
      (Nat.pow_le_pow_right (by norm_num) hlo)
  have hlt2 : x % 2 ^ lo < 2 ^ s :=
    lt_of_lt_of_le (Nat.mod_lt _ (Nat.pos_pow_of_pos lo (by norm_num)))
      (Nat.pow_le_pow_right (by norm_num) hlo)
  apply Nat.eq_of_testBit_eq
  intro k
  rw [Nat.testBit_land, testBit_mul_pow_add _ _ s k hlt,
    testBit_mul_pow_add _ _ s k hlt2]
  rcases Nat.lt_or_ge k s with h | h
  · rw [if_pos h, if_pos h, Nat.testBit_two_pow_sub_one, Nat.testBit_mod_two_pow,
      Bool.and_comm]
  · rw [if_neg (Nat.not_lt.mpr h), if_neg (Nat.not_lt.mpr h),
      Nat.testBit_two_pow_sub_one, Nat.testBit_mod_two_pow,
      ← Nat.shiftRight_eq_div_pow, Nat.testBit_shiftRight]
    have : s + (k - s) = k := by omega
    rw [this, Bool.and_comm]

/-- Decompose a modulus by a product: `x % (A·B)` splits into the `B` digits
above `A` and the part below `A`. -/
theorem mod_mul_decomp (x A B : Nat) :
    x % (A * B) = A * (x / A % B) + x % A := by
  conv_lhs => rw [← Nat.div_add_mod (x % (A * B)) A]
  rw [Nat.mod_mul_right_div_self, Nat.mod_mod_of_dvd _ ⟨B, rfl⟩]

/-! ## `Nat.size` characterisation of `rho` -/

theorem clzAux_eq (n : Nat) : ∀ x, x < 2 ^ n → clzAux x n = n - Nat.size x := by
  induction n with
  | zero =>
    intro x hx
    interval_cases x
    simp [clzAux]
  | succ n ih =>
    intro x hx
    unfold clzAux
    rw [Nat.shiftRight_eq_div_pow]
    by_cases h : x / 2 ^ n % 2 = 1
    · rw [if_pos h]
      have h2 : 2 ^ n ≤ x := by
        by_contra hc
        push_neg at hc
        rw [Nat.div_eq_of_lt hc] at h
        simp at h
      have h3 := Nat.size_le.mpr hx
      have h4 := Nat.lt_size.mpr h2
      omega
    · rw [if_neg h]
      have h2 : x < 2 ^ n := by
        by_contra hc
        push_neg at hc
        have h5 : 1 ≤ x / 2 ^ n :=
          (Nat.one_le_div_iff (Nat.pos_pow_of_pos n (by norm_num))).mpr hc
        have h6 : x / 2 ^ n < 2 := by
          have hpow : (2:Nat) ^ (n + 1) = 2 ^ n * 2 := by ring
          rw [Nat.div_lt_iff_lt_mul (Nat.pos_pow_of_pos n (by norm_num))]
          omega
        omega
      rw [ih x h2]
      have := Nat.size_le.mpr h2
      omega

/-- For 64-bit words, `rho x = 65 - size x` (in particular `rho 0 = 65`). -/
theorem rho_eq_size (x : Nat) (hx : x < 2 ^ 64) : rho x = 65 - Nat.size x := by
  unfold rho
  rw [clzAux_eq 64 x hx]
  have := Nat.size_le.mpr hx
  omega

theorem size_mul_pow_add (a b s : Nat) (ha : a ≠ 0) (hb : b < 2 ^ s) :
    Nat.size (a * 2 ^ s + b) = Nat.size a + s := by
  have hsz : 0 < Nat.size a := Nat.size_pos.mpr (Nat.pos_of_ne_zero ha)
  have h1 : a * 2 ^ s + b < 2 ^ (Nat.size a + s) := by
    rw [pow_add]
    have ha2 := Nat.lt_size_self a
    calc a * 2 ^ s + b < a * 2 ^ s + 2 ^ s := by omega
    _ = (a + 1) * 2 ^ s := by ring
    _ ≤ 2 ^ Nat.size a * 2 ^ s :=
        Nat.mul_le_mul_right _ (by omega)
  have h2 : 2 ^ (Nat.size a - 1 + s) ≤ a * 2 ^ s + b := by
    have ha2 : 2 ^ (Nat.size a - 1) ≤ a := Nat.lt_size.mp (by omega)
    rw [pow_add]
    exact le_trans (Nat.mul_le_mul_right _ ha2) (Nat.le_add_right _ b)
  have hle := Nat.size_le.mpr h1
  have hge := Nat.lt_size.mpr h2
  omega

theorem size_mul_pow (a s : Nat) (ha : a ≠ 0) :
    Nat.size (a * 2 ^ s) = Nat.size a + s := by
  have h := size_mul_pow_add a 0 s ha (Nat.pos_pow_of_pos s (by norm_num))
  simpa using h

theorem size_two_pow_sub_one (n : Nat) : Nat.size (2 ^ n - 1) = n := by
  rcases Nat.eq_zero_or_pos n with rfl | hn
  · simp
  · have hp := Nat.pos_pow_of_pos n (show 0 < 2 by norm_num)
    have h1 : 2 ^ n - 1 < 2 ^ n := by omega
    have h2 : 2 ^ (n - 1) ≤ 2 ^ n - 1 := by
      have : (2:Nat) ^ (n - 1) < 2 ^ n :=
        Nat.pow_lt_pow_right (by norm_num) (by omega)
      omega
    have := Nat.size_le.mpr h1
    have := Nat.lt_size.mpr h2
    omega

/-- Size of `2·a + 1`. -/
theorem size_two_mul_add_one (a : Nat) : Nat.size (2 * a + 1) = Nat.size a + 1 := by
  rcases Nat.eq_zero_or_pos a with rfl | ha
  · simpa using Nat.size_one
  · have h := size_mul_pow_add a 1 1 (by omega) (by norm_num)
    simpa [mul_comm] using h

/-! ## `/`‑`%` characterisation of the slice helpers -/

theorem sliceBits64_spec (x high low : Nat) (hh : high ≤ 63) (hx : x < 2 ^ 64) :
    sliceBits64 x high low = x / 2 ^ low % 2 ^ (high + 1 - low) := by
  unfold sliceBits64
  rw [Nat.shiftLeft_eq, Nat.shiftRight_eq_div_pow]
  rcases le_or_lt low high with hlow | hlow
  · have h64 : (2:Nat) ^ 64 = 2 ^ (high + 1) * 2 ^ (63 - high) := by
      rw [← pow_add]; congr 1; omega
    have hsplit : (2:Nat) ^ (high + 1) = 2 ^ low * 2 ^ (high + 1 - low) := by
      rw [← pow_add]; congr 1; omega
    rw [h64, Nat.mul_mod_mul_right]
    have hexp : (2:Nat) ^ (low + (63 - high)) = 2 ^ (63 - high) * 2 ^ low := by
      rw [← pow_add]; congr 1; omega
    rw [hexp]
    rw [mul_comm (x % 2 ^ (high + 1)) (2 ^ (63 - high)),
      Nat.mul_div_mul_left _ _ (Nat.pos_pow_of_pos _ (by norm_num))]
    rw [hsplit, Nat.mod_mul_right_div_self]
  · have hz : high + 1 - low = 0 := by omega
    rw [hz]
    simp only [pow_zero, Nat.mod_one]
    apply Nat.div_eq_of_lt
    calc x * 2 ^ (63 - high) % 2 ^ 64 < 2 ^ 64 :=
        Nat.mod_lt _ (Nat.pos_pow_of_pos _ (by norm_num))
    _ ≤ 2 ^ (low + (63 - high)) := Nat.pow_le_pow_right (by norm_num) (by omega)

theorem sliceBits32_spec (x high low : Nat) (hh : high ≤ 31) (hx : x < 2 ^ 32) :
    sliceBits32 x high low = x / 2 ^ low % 2 ^ (high + 1 - low) := by
  unfold sliceBits32
  rw [Nat.shiftLeft_eq, Nat.shiftRight_eq_div_pow]
  rcases le_or_lt low high with hlow | hlow
  · have h32 : (2:Nat) ^ 32 = 2 ^ (high + 1) * 2 ^ (31 - high) := by
      rw [← pow_add]; congr 1; omega
    have hsplit : (2:Nat) ^ (high + 1) = 2 ^ low * 2 ^ (high + 1 - low) := by
      rw [← pow_add]; congr 1; omega
    rw [h32, Nat.mul_mod_mul_right]
    have hexp : (2:Nat) ^ (low + (31 - high)) = 2 ^ (31 - high) * 2 ^ low := by
      rw [← pow_add]; congr 1; omega
    rw [hexp]
    rw [mul_comm (x % 2 ^ (high + 1)) (2 ^ (31 - high)),
      Nat.mul_div_mul_left _ _ (Nat.pos_pow_of_pos _ (by norm_num))]
    rw [hsplit, Nat.mod_mul_right_div_self]
  · have hz : high + 1 - low = 0 := by omega
    rw [hz]
    simp only [pow_zero, Nat.mod_one]
    apply Nat.div_eq_of_lt
    calc x * 2 ^ (31 - high) % 2 ^ 32 < 2 ^ 32 :=
        Nat.mod_lt _ (Nat.pos_pow_of_pos _ (by norm_num))
    _ ≤ 2 ^ (low + (31 - high)) := Nat.pow_le_pow_right (by norm_num) (by omega)

section Shape

variable {p pp x : Nat}

theorem idx_lt (hpp25 : pp ≤ 25) (hx : x < 2 ^ 64) :
    x / 2 ^ (64 - pp) < 2 ^ pp := by
  rw [Nat.div_lt_iff_lt_mul (Nat.pos_pow_of_pos _ (by norm_num)), ← pow_add]
  calc x < 2 ^ 64 := hx
  _ ≤ 2 ^ (pp + (64 - pp)) := Nat.pow_le_pow_right (by norm_num) (by omega)

theorem slice_cond_eq (hp4 : 4 ≤ p) (hpp1 : p ≤ pp) (hpp25 : pp ≤ 25)
    (hx : x < 2 ^ 64) :
    sliceBits64 x (63 - p) (64 - pp) = x / 2 ^ (64 - pp) % 2 ^ (pp - p) := by
  rw [sliceBits64_spec x _ _ (by omega) hx]
  have he : 63 - p + 1 - (64 - pp) = pp - p := by omega
  rw [he]

theorem slice_top_eq (hpp4 : 4 ≤ pp) (hpp25 : pp ≤ 25) (hx : x < 2 ^ 64) :
    sliceBits64 x 63 (64 - pp) = x / 2 ^ (64 - pp) := by
  rw [sliceBits64_spec x _ _ (by omega) hx]
  have he : 63 + 1 - (64 - pp) = pp := by omega
  rw [he, Nat.mod_eq_of_lt (idx_lt hpp25 hx)]

theorem slice_low_eq (hpp4 : 4 ≤ pp) (hpp25 : pp ≤ 25) (hx : x < 2 ^ 64) :
    sliceBits64 x (63 - pp) 0 = x % 2 ^ (64 - pp) := by
  rw [sliceBits64_spec x _ _ (by omega) hx]
  have he : 63 - pp + 1 - 0 = 64 - pp := by omega
  rw [he, pow_zero, Nat.div_one]

/-- The flagged-branch rank is `65 - pp - size (low bits of x)`. -/
theorem sparseRank_eq (hpp4 : 4 ≤ pp) (hpp25 : pp ≤ 25) (hx : x < 2 ^ 64) :
    sparseRank pp x = 65 - pp - Nat.size (x % 2 ^ (64 - pp)) := by
  unfold sparseRank
  rw [slice_low_eq hpp4 hpp25 hx]
  set lo := x % 2 ^ (64 - pp) with hlo
  have hlolt : lo < 2 ^ (64 - pp) := Nat.mod_lt _ (Nat.pos_pow_of_pos _ (by norm_num))
  have hnowrap : lo <<< pp < 2 ^ 64 := by
    rw [Nat.shiftLeft_eq]
    calc lo * 2 ^ pp < 2 ^ (64 - pp) * 2 ^ pp :=
          (Nat.mul_lt_mul_right (Nat.pos_pow_of_pos pp (by norm_num))).mpr hlolt
    _ = 2 ^ 64 := by rw [← pow_add]; congr 1; omega
  rw [Nat.mod_eq_of_lt hnowrap, Nat.shiftLeft_eq,
    lor_mul_pow_add lo _ pp (by
      have := Nat.pos_pow_of_pos pp (show 0 < 2 by norm_num)
      omega)]
  have hval : lo * 2 ^ pp + (2 ^ pp - 1) < 2 ^ 64 := by
    have hpos := Nat.pos_pow_of_pos pp (show 0 < 2 by norm_num)
    calc lo * 2 ^ pp + (2 ^ pp - 1) < lo * 2 ^ pp + 2 ^ pp := by omega
    _ = (lo + 1) * 2 ^ pp := by ring
    _ ≤ 2 ^ (64 - pp) * 2 ^ pp := Nat.mul_le_mul_right _ (by omega)
    _ = 2 ^ 64 := by rw [← pow_add]; congr 1; omega
  rw [rho_eq_size _ hval]
  rcases Nat.eq_zero_or_pos lo with h0 | hpos
  · rw [h0]
    simp only [Nat.zero_mul, Nat.zero_add, size_two_pow_sub_one, Nat.size_zero]
    omega
  · rw [size_mul_pow_add lo _ pp (by omega) (by
      have := Nat.pos_pow_of_pos pp (show 0 < 2 by norm_num)
      omega)]
    omega

theorem sparseRank_le (hpp4 : 4 ≤ pp) (hpp25 : pp ≤ 25) (hx : x < 2 ^ 64) :
    1 ≤ sparseRank pp x ∧ sparseRank pp x ≤ 64 - pp + 1 := by
  rw [sparseRank_eq hpp4 hpp25 hx]
  have hlolt : x % 2 ^ (64 - pp) < 2 ^ (64 - pp) :=
    Nat.mod_lt _ (Nat.pos_pow_of_pos _ (by norm_num))
  have hsz : Nat.size (x % 2 ^ (64 - pp)) ≤ 64 - pp := Nat.size_le.mpr hlolt
  omega

/-- Arithmetic shape of `encodeHash`: a flagged word `idx·2^7 + 2·r + 1` when
the bits strictly between the `p`-index and the `p′`-index are zero, an
unflagged word `idx·2` otherwise. -/
theorem encodeHash_shape (hp4 : 4 ≤ p) (hpp1 : p ≤ pp) (hpp25 : pp ≤ 25)
    (hx : x < 2 ^ 64) :
    encodeHash p pp x =
      if x / 2 ^ (64 - pp) % 2 ^ (pp - p) = 0 then
        x / 2 ^ (64 - pp) * 2 ^ 7 + 2 * sparseRank pp x + 1
      else
        x / 2 ^ (64 - pp) * 2 := by
  have hpp4 : 4 ≤ pp := le_trans hp4 hpp1
  have hidx : x / 2 ^ (64 - pp) < 2 ^ pp := idx_lt hpp25 hx
  obtain ⟨hr1, hr2⟩ := sparseRank_le (x := x) hpp4 hpp25 hx
  have hunfold : encodeHash p pp x =
      if sliceBits64 x (63 - p) (64 - pp) = 0 then
        ((sliceBits64 x 63 (64 - pp) <<< 7) |||
          ((sparseRank pp x <<< 1) % 2 ^ 8) ||| 1) % 2 ^ 32
      else (sliceBits64 x 63 (64 - pp) <<< 1) % 2 ^ 32 := rfl
  rw [hunfold, slice_cond_eq hp4 hpp1 hpp25 hx, slice_top_eq hpp4 hpp25 hx]
  set idx := x / 2 ^ (64 - pp) with hidxdef
  set r := sparseRank pp x with hrdef
  by_cases hc : idx % 2 ^ (pp - p) = 0
  · rw [if_pos hc, if_pos hc]
    have hrsmall : r <<< 1 % 2 ^ 8 = 2 * r := by
      rw [Nat.shiftLeft_eq]
      have h4 : r * 2 ^ 1 = 2 * r := by ring
      rw [h4, Nat.mod_eq_of_lt (by omega)]
    rw [hrsmall, Nat.shiftLeft_eq]
    have h1 : idx * 2 ^ 7 ||| 2 * r = idx * 2 ^ 7 + 2 * r :=
      lor_mul_pow_add idx (2 * r) 7 (by omega)
    rw [h1]
    have h2 : idx * 2 ^ 7 + 2 * r = (idx * 2 ^ 6 + r) * 2 ^ 1 := by ring
    rw [h2, lor_mul_pow_add _ 1 1 (by omega)]
    have h3 : (idx * 2 ^ 6 + r) * 2 ^ 1 + 1 < 2 ^ 32 := by
      have hi : idx < 2 ^ 25 :=
        lt_of_lt_of_le hidx (Nat.pow_le_pow_right (by norm_num) hpp25)
      have h8 : idx * 2 ^ 6 ≤ (2 ^ 25 - 1) * 2 ^ 6 := Nat.mul_le_mul_right _ (by omega)
      have h9 : (2 ^ 25 - 1) * 2 ^ 6 = 2 ^ 31 - 2 ^ 6 := by norm_num
      omega
    rw [Nat.mod_eq_of_lt h3]
  · rw [if_neg hc, if_neg hc, Nat.shiftLeft_eq]
    have h3 : idx * 2 ^ 1 < 2 ^ 32 := by
      have : idx < 2 ^ 25 :=
        lt_of_lt_of_le hidx (Nat.pow_le_pow_right (by norm_num) hpp25)
      calc idx * 2 ^ 1 < 2 ^ 25 * 2 ^ 1 := (Nat.mul_lt_mul_right (by norm_num)).mpr this
      _ ≤ 2 ^ 32 := by norm_num
    rw [Nat.mod_eq_of_lt h3]
    ring

/-- The value whose `rho` dense-mode `Add` takes, in arithmetic form. -/
theorem denseVal_eq (hp4 : 4 ≤ p) (hp16 : p ≤ 16) (hx : x < 2 ^ 64) :
    (x <<< p) % 2 ^ 64 ||| 1 <<< (p - 1) =
      x % 2 ^ (64 - p) * 2 ^ p + 2 ^ (p - 1) := by
  rw [Nat.shiftLeft_eq, Nat.shiftLeft_eq, one_mul]
  have h64 : (2:Nat) ^ 64 = 2 ^ (64 - p) * 2 ^ p := by
    rw [← pow_add]; congr 1; omega
  rw [h64, Nat.mul_mod_mul_right]
  exact lor_mul_pow_add _ _ p (Nat.pow_lt_pow_right (by norm_num) (by omega))

theorem denseVal_lt (hp4 : 4 ≤ p) (hp16 : p ≤ 16) :
    x % 2 ^ (64 - p) * 2 ^ p + 2 ^ (p - 1) < 2 ^ 64 := by
  have h1 : x % 2 ^ (64 - p) < 2 ^ (64 - p) :=
    Nat.mod_lt _ (Nat.pos_pow_of_pos _ (by norm_num))
  have h5 : (2:Nat) ^ (p - 1) < 2 ^ p := Nat.pow_lt_pow_right (by norm_num) (by omega)
  calc x % 2 ^ (64 - p) * 2 ^ p + 2 ^ (p - 1)
      < x % 2 ^ (64 - p) * 2 ^ p + 2 ^ p := by omega
  _ = (x % 2 ^ (64 - p) + 1) * 2 ^ p := by ring
  _ ≤ 2 ^ (64 - p) * 2 ^ p := Nat.mul_le_mul_right _ (by omega)
  _ = 2 ^ 64 := by rw [← pow_add]; congr 1; omega

/-- Claim C1.  For every 64-bit hash `x` and every valid configuration
(`4 ≤ p ≤ 16`, `p ≤ p′ ≤ 25`), decoding an encoded hash at precision `p`
recovers exactly what dense-mode `Add` derives directly from `x`:
`decodeHash (encodeHash x) p = (idx, r)` with `idx = sliceBits64 x 63 (64-p)`
(the top `p` bits of `x`, i.e. `x / 2^(64-p)`) and
`r = rho((x << p) | (1 << (p-1)))`. -/
theorem claim1_decode_encode (p pp x : Nat) (hp4 : 4 ≤ p) (hp16 : p ≤ 16)
    (hpp1 : p ≤ pp) (hpp25 : pp ≤ 25) (hx : x < 2 ^ 64) :
    decodeHash p pp (encodeHash p pp x) p =
        (sliceBits64 x 63 (64 - p), rho ((x <<< p) % 2 ^ 64 ||| 1 <<< (p - 1))) ∧
      sliceBits64 x 63 (64 - p) = x / 2 ^ (64 - p) := by
  have hpp4 : 4 ≤ pp := le_trans hp4 hpp1
  -- abbreviations
  set d := pp - p with hd
  set idx := x / 2 ^ (64 - pp) with hidx
  set lo := x % 2 ^ (64 - pp) with hlo
  set mid := idx % 2 ^ d with hmid
  set ixp := x / 2 ^ (64 - p) with hixp
  -- basic facts
  have hidxlt : idx < 2 ^ pp := idx_lt hpp25 hx
  have hlolt : lo < 2 ^ (64 - pp) := Nat.mod_lt _ (Nat.pos_pow_of_pos _ (by norm_num))
  have hmidlt : mid < 2 ^ d := Nat.mod_lt _ (Nat.pos_pow_of_pos _ (by norm_num))
  have hixplt : ixp < 2 ^ p := by
    rw [hixp, Nat.div_lt_iff_lt_mul (Nat.pos_pow_of_pos _ (by norm_num)), ← pow_add]
    calc x < 2 ^ 64 := hx
    _ ≤ 2 ^ (p + (64 - p)) := Nat.pow_le_pow_right (by norm_num) (by omega)
  have hsplit64p : (2:Nat) ^ (64 - p) = 2 ^ (64 - pp) * 2 ^ d := by
    rw [← pow_add]; congr 1; omega
  have hixp_eq : ixp = idx / 2 ^ d := by
    rw [hixp, hidx, Nat.div_div_eq_div_mul, ← hsplit64p]
  have hidx_split : idx = 2 ^ d * ixp + mid := by
    rw [hixp_eq, hmid]
    exact (Nat.div_add_mod idx (2 ^ d)).symm
  have hx_modp : x % 2 ^ (64 - p) = 2 ^ (64 - pp) * mid + lo := by
    rw [hsplit64p, mod_mul_decomp, ← hidx, ← hmid, ← hlo]
  -- the RHS of the claim
  have hrhsidx : sliceBits64 x 63 (64 - p) = ixp := by
    rw [sliceBits64_spec x _ _ (by omega) hx]
    have he : 63 + 1 - (64 - p) = p := by omega
    rw [he, ← hixp, Nat.mod_eq_of_lt hixplt]
  have hVeq := denseVal_eq (p := p) (x := x) hp4 hp16 hx
  have hVlt := denseVal_lt (p := p) (x := x) hp4 hp16
  have hrhsrho : rho ((x <<< p) % 2 ^ 64 ||| 1 <<< (p - 1)) =
      65 - Nat.size (x % 2 ^ (64 - p) * 2 ^ p + 2 ^ (p - 1)) := by
    rw [hVeq]
    exact rho_eq_size _ hVlt
  -- size of the dense value, by cases on mid and lo
  have hszlo : Nat.size lo ≤ 64 - pp := Nat.size_le.mpr hlolt
  have hszmid : Nat.size mid ≤ d := Nat.size_le.mpr hmidlt
  have hlop_lt : lo * 2 ^ p + 2 ^ (p - 1) < 2 ^ (64 - pp + p) := by
    have h5 : (2:Nat) ^ (p - 1) < 2 ^ p := Nat.pow_lt_pow_right (by norm_num) (by omega)
    calc lo * 2 ^ p + 2 ^ (p - 1) < lo * 2 ^ p + 2 ^ p := by omega
    _ = (lo + 1) * 2 ^ p := by ring
    _ ≤ 2 ^ (64 - pp) * 2 ^ p := Nat.mul_le_mul_right _ (by omega)
    _ = 2 ^ (64 - pp + p) := by rw [← pow_add]
  have hVsize : Nat.size (x % 2 ^ (64 - p) * 2 ^ p + 2 ^ (p - 1)) =
      if mid = 0 then
        (if lo = 0 then p else Nat.size lo + p)
      else Nat.size mid + (64 - pp + p) := by
    rw [hx_modp]
    by_cases hmz : mid = 0
    · rw [if_pos hmz, hmz, Nat.mul_zero, Nat.zero_add]
      by_cases hlz : lo = 0
      · rw [if_pos hlz, hlz, Nat.zero_mul, Nat.zero_add]
        have : Nat.size (2 ^ (p - 1)) = p - 1 + 1 := Nat.size_pow
        omega
      · rw [if_neg hlz]
        exact size_mul_pow_add lo _ p hlz
          (Nat.pow_lt_pow_right (by norm_num) (by omega))
    · rw [if_neg hmz]
      have hre : (2 ^ (64 - pp) * mid + lo) * 2 ^ p =
          mid * 2 ^ (64 - pp + p) + lo * 2 ^ p := by
        rw [pow_add]; ring
      rw [hre, Nat.add_assoc]
      exact size_mul_pow_add mid _ _ hmz hlop_lt
  -- now the left-hand side
  rw [encodeHash_shape hp4 hpp1 hpp25 hx, ← hidx, ← hmid]
  refine ⟨?_, hrhsidx⟩
  by_cases hmz : mid = 0
  · -- flagged word
    rw [if_pos hmz]
    set r := sparseRank pp x with hr
    obtain ⟨hr1, hr2⟩ := sparseRank_le (x := x) hpp4 hpp25 hx
    have hreq : r = 65 - pp - Nat.size lo := by
      rw [hr, sparseRank_eq hpp4 hpp25 hx, ← hlo]
    set k := idx * 2 ^ 7 + 2 * r + 1 with hk
    have hkodd : k = 2 * (idx * 2 ^ 6 + r) + 1 := by rw [hk]; ring
    have hk2 : k % 2 = 1 := by omega
    have hidx25 : idx < 2 ^ 25 :=
      lt_of_lt_of_le hidxlt (Nat.pow_le_pow_right (by norm_num) hpp25)
    have hklt : k < 2 ^ 32 := by
      have h8 : idx * 2 ^ 7 ≤ (2 ^ 25 - 1) * 2 ^ 7 := Nat.mul_le_mul_right _ (by omega)
      have h9 : ((2:Nat) ^ 25 - 1) * 2 ^ 7 = 2 ^ 32 - 2 ^ 7 := by norm_num
      omega
    have hdec : decodeHash p pp k p =
        (getIndex pp k p,
          if k % 2 = 1 then ((sliceBits32 k 6 1) % 2 ^ 8 + (pp - p)) % 2 ^ 8
          else rho (((k ||| 1) <<< (64 - (pp + 1) + p)) % 2 ^ 64)) := rfl
    rw [hdec, if_pos hk2]
    have hidx64 : idx * 2 ^ 6 = 64 * idx := by ring
    -- the rank component
    have hslice : sliceBits32 k 6 1 = r := by
      rw [sliceBits32_spec k 6 1 (by norm_num) hklt]
      have h10 : k / 2 ^ 1 = idx * 2 ^ 6 + r := by omega
      rw [h10]
      have h11 : 6 + 1 - 1 = 6 := by norm_num
      rw [h11]
      omega
    have hrank : (sliceBits32 k 6 1 % 2 ^ 8 + (pp - p)) % 2 ^ 8 = r + (pp - p) := by
      rw [hslice]
      omega
    -- the index component
    have hgi : getIndex pp k p = ixp := by
      unfold getIndex
      rw [if_pos hk2, sliceBits32_spec k _ _ (by omega) hklt]
      have he : 6 + pp + 1 - (1 + 6 + pp - p) = p := by omega
      have he2 : 1 + 6 + pp - p = d + 7 := by omega
      rw [he, he2]
      have hmz0 : idx = 2 ^ d * ixp := by omega
      have hkform : k = ixp * 2 ^ (d + 7) + (2 * r + 1) := by
        rw [hk, hmz0, pow_add]; ring
      have h12 : k / 2 ^ (d + 7) = ixp := by
        rw [hkform, mul_comm ixp (2 ^ (d + 7)),
          Nat.mul_add_div (Nat.pos_pow_of_pos _ (by norm_num))]
        have h13 : 2 * r + 1 < 2 ^ (d + 7) := by
          have : (2:Nat) ^ 7 ≤ 2 ^ (d + 7) := Nat.pow_le_pow_right (by norm_num) (by omega)
          omega
        rw [Nat.div_eq_of_lt h13, Nat.add_zero]
      rw [h12, Nat.mod_eq_of_lt hixplt]
    rw [hgi, hrank, hrhsidx, hrhsrho, hVsize, if_pos hmz]
    refine Prod.ext rfl ?_
    simp only
    by_cases hlz : lo = 0
    · rw [if_pos hlz]
      rw [hlz] at hreq
      simp only [Nat.size_zero] at hreq
      omega
    · rw [if_neg hlz]
      have hlopos : 0 < Nat.size lo := Nat.size_pos.mpr (Nat.pos_of_ne_zero hlz)
      omega
  · -- unflagged word
    rw [if_neg hmz]
    set k := idx * 2 with hk
    have hk2 : ¬ k % 2 = 1 := by omega
    have hdec : decodeHash p pp k p =
        (getIndex pp k p,
          if k % 2 = 1 then ((sliceBits32 k 6 1) % 2 ^ 8 + (pp - p)) % 2 ^ 8
          else rho (((k ||| 1) <<< (64 - (pp + 1) + p)) % 2 ^ 64)) := rfl
    rw [hdec, if_neg hk2]
    have hidx25 : idx < 2 ^ 25 :=
      lt_of_lt_of_le hidxlt (Nat.pow_le_pow_right (by norm_num) hpp25)
    have hklt : k < 2 ^ 32 := by omega
    -- k ||| 1 = idx*2 + 1
    have hor : k ||| 1 = idx * 2 + 1 := by
      have h1 : k = idx * 2 ^ 1 := by rw [hk]; ring
      rw [h1, lor_mul_pow_add idx 1 1 (by norm_num)]
      ring_nf
    -- shift amount
    have hs64 : (2:Nat) ^ 64 = 2 ^ (d + 1) * 2 ^ (64 - (pp + 1) + p) := by
      rw [← pow_add]; congr 1; omega
    have hmodd1 : (idx * 2 + 1) % 2 ^ (d + 1) = 2 * mid + 1 := by
      have h1 : idx * 2 + 1 = 2 ^ (d + 1) * ixp + (2 * mid + 1) := by
        rw [hidx_split, pow_add]; ring
      rw [h1, Nat.mul_add_mod]
      have h2 : 2 * mid + 1 < 2 ^ (d + 1) := by
        rw [pow_add]
        have h3 : (0:Nat) < 2 ^ d := Nat.pos_pow_of_pos _ (by norm_num)
        omega
      exact Nat.mod_eq_of_lt h2
    have hshift : ((k ||| 1) <<< (64 - (pp + 1) + p)) % 2 ^ 64 =
        (2 * mid + 1) * 2 ^ (64 - (pp + 1) + p) := by
      rw [hor, Nat.shiftLeft_eq, hs64, Nat.mul_mod_mul_right, hmodd1]
    have hWlt : (2 * mid + 1) * 2 ^ (64 - (pp + 1) + p) < 2 ^ 64 := by
      rw [hs64]
      apply (Nat.mul_lt_mul_right (Nat.pos_pow_of_pos _ (by norm_num))).mpr
      rw [pow_add]
      have h3 : (0:Nat) < 2 ^ d := Nat.pos_pow_of_pos _ (by norm_num)
      omega
    have hrank : rho (((k ||| 1) <<< (64 - (pp + 1) + p)) % 2 ^ 64) =
        65 - (Nat.size mid + 1 + (64 - (pp + 1) + p)) := by
      rw [hshift, rho_eq_size _ hWlt, size_mul_pow _ _ (by omega),
        size_two_mul_add_one]
    -- index component
    have hgi : getIndex pp k p = ixp := by
      unfold getIndex
      rw [if_neg hk2, sliceBits32_spec k _ _ (by omega) hklt]
      have he : pp + 1 - (1 + pp - p) = p := by omega
      have he2 : 1 + pp - p = d + 1 := by omega
      rw [he, he2]
      have hkform : k = ixp * 2 ^ (d + 1) + 2 * mid := by
        rw [hk, hidx_split, pow_add]; ring
      have h12 : k / 2 ^ (d + 1) = ixp := by
        rw [hkform, mul_comm ixp (2 ^ (d + 1)),
          Nat.mul_add_div (Nat.pos_pow_of_pos _ (by norm_num))]
        have h13 : 2 * mid < 2 ^ (d + 1) := by
          rw [pow_add]
          have h3 : (0:Nat) < 2 ^ d := Nat.pos_pow_of_pos _ (by norm_num)
          omega
        rw [Nat.div_eq_of_lt h13, Nat.add_zero]
      rw [h12, Nat.mod_eq_of_lt hixplt]
    rw [hgi, hrank, hrhsidx, hrhsrho, hVsize, if_neg hmz]
    refine Prod.ext rfl ?_
    simp only
    have hmidpos : 0 < Nat.size mid := Nat.size_pos.mpr (Nat.pos_of_ne_zero hmz)
    omega

/-- Claim C2 (amended): sorting encoded hashes by 32-bit value orders them
by p′-index *among words with the same flag bit*: if
`encodeHash x < encodeHash y` and the two words have equal low (flag) bits,
then the p′-index of `x` is at most that of `y`.  (Across different flag
bits the order can invert, see the counterexample.) -/
theorem claim2_amended_sorted_by_index (p pp x y : Nat) (hp4 : 4 ≤ p)
    (hp16 : p ≤ 16) (hpp1 : p ≤ pp) (hpp25 : pp ≤ 25)
    (hx : x < 2 ^ 64) (hy : y < 2 ^ 64)
    (hflag : encodeHash p pp x % 2 = encodeHash p pp y % 2)
    (hlt : encodeHash p pp x < encodeHash p pp y) :
    x / 2 ^ (64 - pp) ≤ y / 2 ^ (64 - pp) := by
  have hpp4 : 4 ≤ pp := le_trans hp4 hpp1
  obtain ⟨hrx1, hrx2⟩ := sparseRank_le (x := x) hpp4 hpp25 hx
  obtain ⟨hry1, hry2⟩ := sparseRank_le (x := y) hpp4 hpp25 hy
  rw [encodeHash_shape hp4 hpp1 hpp25 hx, encodeHash_shape hp4 hpp1 hpp25 hy]
    at hflag hlt
  by_cases hcx : x / 2 ^ (64 - pp) % 2 ^ (pp - p) = 0 <;>
    by_cases hcy : y / 2 ^ (64 - pp) % 2 ^ (pp - p) = 0 <;>
    simp only [hcx, hcy, if_true, if_false] at hflag hlt <;>
    omega

/-- Claim C2, counterexample to the claim as stated: with the default
configuration `p = 14`, `p′ = 25`, the hashes `x = 2^50 + 2^39` and
`y = 2^50` satisfy `encodeHash x < encodeHash y` (4098 < 262225) although
the p′-index of `x` (2049) is strictly greater than that of `y` (2048):
`x` produces an unflagged word scaled by 2, `y` a flagged word scaled
by 128. -/
theorem claim2_counterexample :
    encodeHash 14 25 (2 ^ 50 + 2 ^ 39) < encodeHash 14 25 (2 ^ 50) ∧
      ¬((2 ^ 50 + 2 ^ 39) / 2 ^ (64 - 25) ≤ 2 ^ 50 / 2 ^ (64 - 25)) := by
  constructor
  · decide
  · decide

/-- Claim C9, counterexample to the claim as stated: the claim bounds the
stored rank by `64 - p′ + 1 ≤ 40`, but at the valid configuration
`p = p′ = 4` the hash `x = 0` is encoded with the flag set and stored rank
`64 - 4 + 1 = 61 > 40`. -/
theorem claim9_counterexample :
    encodeHash 4 4 0 % 2 = 1 ∧ 40 < sliceBits32 (encodeHash 4 4 0) 6 1 := by
  constructor
  · decide
  · decide

/-- Claim C9 (amended): whenever `encodeHash` emits a word with the rank
flag set, the stored rank is exactly the computed `rho` value, it is bounded
by `64 - p′ + 1 ≤ 61 < 64` (so it fits the 6-bit rank field), and the
p′-index bits of the word are not corrupted (`word >>> 7` recovers the
p′-index). -/
theorem claim9_amended_rank_bounded (p pp x : Nat) (hp4 : 4 ≤ p)
    (hp16 : p ≤ 16) (hpp1 : p ≤ pp) (hpp25 : pp ≤ 25) (hx : x < 2 ^ 64)
    (hodd : encodeHash p pp x % 2 = 1) :
    sliceBits32 (encodeHash p pp x) 6 1 = sparseRank pp x ∧
      sparseRank pp x ≤ 64 - pp + 1 ∧ 64 - pp + 1 ≤ 61 ∧ 64 - pp + 1 < 64 ∧
      encodeHash p pp x >>> 7 = x / 2 ^ (64 - pp) := by
  have hpp4 : 4 ≤ pp := le_trans hp4 hpp1
  obtain ⟨hr1, hr2⟩ := sparseRank_le (x := x) hpp4 hpp25 hx
  have hshape := encodeHash_shape (x := x) hp4 hpp1 hpp25 hx
  have hidxlt : x / 2 ^ (64 - pp) < 2 ^ pp := idx_lt hpp25 hx
  have hidx25 : x / 2 ^ (64 - pp) < 2 ^ 25 :=
    lt_of_lt_of_le hidxlt (Nat.pow_le_pow_right (by norm_num) hpp25)
  by_cases hc : x / 2 ^ (64 - pp) % 2 ^ (pp - p) = 0
  · rw [if_pos hc] at hshape
    set idx := x / 2 ^ (64 - pp) with hidx
    set r := sparseRank pp x with hr
    have hklt : encodeHash p pp x < 2 ^ 32 := by
      rw [hshape]
      have h8 : idx * 2 ^ 7 ≤ (2 ^ 25 - 1) * 2 ^ 7 := Nat.mul_le_mul_right _ (by omega)
      have h9 : ((2:Nat) ^ 25 - 1) * 2 ^ 7 = 2 ^ 32 - 2 ^ 7 := by norm_num
      omega
    refine ⟨?_, by omega, by omega, by omega, ?_⟩
    · rw [sliceBits32_spec _ 6 1 (by norm_num) hklt, hshape]
      have h11 : 6 + 1 - 1 = 6 := by norm_num
      rw [h11]
      have h10 : (idx * 2 ^ 7 + 2 * r + 1) / 2 ^ 1 = idx * 2 ^ 6 + r := by
        have hre : idx * 2 ^ 7 + 2 * r + 1 = 2 * (idx * 2 ^ 6 + r) + 1 := by ring
        omega
      rw [h10]
      have hidx64 : idx * 2 ^ 6 = 64 * idx := by ring
      omega
    · rw [hshape, Nat.shiftRight_eq_div_pow]
      have hre : idx * 2 ^ 7 + 2 * r + 1 = 128 * idx + (2 * r + 1) := by ring
      omega
  · rw [if_neg hc] at hshape
    rw [hshape] at hodd
    omega

/-! ### Byte-level characterisation of the register operations -/

theorem getD_set_eq (l : List Nat) (i n a : Nat) :
    (l.set i a).getD n 0 = if i = n ∧ i < l.length then a else l.getD n 0 := by
  rw [List.getD_eq_getElem?_getD, List.getD_eq_getElem?_getD, List.getElem?_set]
  by_cases h1 : i = n
  · subst h1
    by_cases h2 : i < l.length
    · simp [h2]
    · simp only [if_pos rfl, if_neg h2, and_false, if_false, and_true]
      rw [List.getElem?_eq_none (by omega)]
      simp [h2]
  · simp [h1]

theorem getD_lt_256 {data : List Nat} (hbytes : ∀ b ∈ data, b < 256) (n : Nat) :
    data.getD n 0 < 256 := by
  rw [List.getD_eq_getElem?_getD]
  cases h : data[n]? with
  | none => simp
  | some a =>
    have := List.getElem?_mem h
    simpa using hbytes a this

/-- Field reads below a preserved low part agree. -/
theorem field_frame_low {b b0 t a c : Nat} (h : b % 2 ^ t = b0 % 2 ^ t)
    (hac : a + c ≤ t) : b / 2 ^ a % 2 ^ c = b0 / 2 ^ a % 2 ^ c := by
  have key : ∀ y : Nat, y / 2 ^ a % 2 ^ c = y % 2 ^ t / 2 ^ a % 2 ^ c := by
    intro y
    have h1 : (2:Nat) ^ t = 2 ^ a * (2 ^ c * 2 ^ (t - a - c)) := by
      rw [← pow_add, ← pow_add]; congr 1; omega
    conv_rhs => rw [h1, Nat.mod_mul_right_div_self]
    rw [Nat.mod_mod_of_dvd _ ⟨2 ^ (t - a - c), rfl⟩]
  rw [key b, key b0, h]

/-- Field reads above a preserved high part agree. -/
theorem field_frame_high {b b0 t a c : Nat} (h : b / 2 ^ t = b0 / 2 ^ t)
    (hta : t ≤ a) : b / 2 ^ a % 2 ^ c = b0 / 2 ^ a % 2 ^ c := by
  have key : ∀ y : Nat, y / 2 ^ a = y / 2 ^ t / 2 ^ (a - t) := by
    intro y
    rw [Nat.div_div_eq_div_mul, ← pow_add]
    congr 2
    omega
  rw [key b, key b0, h]

/-- The new byte written by the one-byte branch of `setRegister`:
its low `ls` bits and its bits above `ls + w` are those of the old byte,
the `w`-bit field at `ls` is `v`, and it is again a byte. -/
theorem setByte_fits (b0 v w off : Nat) (hb0 : b0 < 256) (hv : v < 2 ^ w)
    (hw : 0 < w) (hw8 : w ≤ 8) (hoff : off < 8) (hfits : w + off ≤ 8) :
    let ls := 8 - w - off
    let b := (b0 &&& (255 - mask w ls % 2 ^ 8)) ||| ((v <<< ls) % 2 ^ 8)
    b % 2 ^ ls = b0 % 2 ^ ls ∧ b / 2 ^ (ls + w) = b0 / 2 ^ (ls + w) ∧
      b / 2 ^ ls % 2 ^ w = v ∧ b < 256 := by
  intro ls b
  have hls : ls = 8 - w - off := rfl
  have hlsw : ls + w ≤ 8 := by omega
  have e1 : (2:Nat) ^ (ls + w) = 2 ^ ls * 2 ^ w := by rw [pow_add]
  have e2 : (2:Nat) ^ 8 = 2 ^ (8 - ls - w) * 2 ^ (ls + w) := by
    rw [← pow_add]; congr 1; omega
  have hp_ls : (0:Nat) < 2 ^ ls := Nat.pos_pow_of_pos _ (by norm_num)
  have hp_w : (0:Nat) < 2 ^ w := Nat.pos_pow_of_pos _ (by norm_num)
  have hp_lsw : (0:Nat) < 2 ^ (ls + w) := Nat.pos_pow_of_pos _ (by norm_num)
  have hle1 : (2:Nat) ^ ls ≤ 2 ^ (ls + w) := Nat.pow_le_pow_right (by norm_num) (by omega)
  have hle2 : (2:Nat) ^ (ls + w) ≤ 2 ^ 8 := Nat.pow_le_pow_right (by norm_num) hlsw
  -- the mask and its complement
  have hmask : mask w ls % 2 ^ 8 = (2 ^ w - 1) * 2 ^ ls := by
    unfold mask
    rw [Nat.shiftLeft_eq]
    have hlt : ((2:Nat) ^ w - 1) * 2 ^ ls < 2 ^ 8 := by
      calc ((2:Nat) ^ w - 1) * 2 ^ ls < 2 ^ w * 2 ^ ls := by
            exact (Nat.mul_lt_mul_right hp_ls).mpr (by omega)
      _ = 2 ^ (w + ls) := by rw [← pow_add]
      _ ≤ 2 ^ 8 := Nat.pow_le_pow_right (by norm_num) (by omega)
    rw [Nat.mod_eq_of_lt (lt_trans hlt (by norm_num)), Nat.mod_eq_of_lt hlt]
  have hcompl : 255 - (2 ^ w - 1) * 2 ^ ls =
      (2 ^ (8 - ls - w) - 1) * 2 ^ (ls + w) + (2 ^ ls - 1) := by
    have e3 : ((2:Nat) ^ w - 1) * 2 ^ ls = 2 ^ (ls + w) - 2 ^ ls := by
      rw [e1, Nat.sub_mul, one_mul, mul_comm]
    have e4 : ((2:Nat) ^ (8 - ls - w) - 1) * 2 ^ (ls + w) = 2 ^ 8 - 2 ^ (ls + w) := by
      rw [Nat.sub_mul, one_mul, ← e2]
    rw [e3, e4]
    have h256 : (2:Nat) ^ 8 = 256 := by norm_num
    omega
  have hand : b0 &&& (255 - mask w ls % 2 ^ 8) =
      b0 / 2 ^ (ls + w) % 2 ^ (8 - ls - w) * 2 ^ (ls + w) + b0 % 2 ^ ls := by
    rw [hmask, hcompl]
    exact land_split_mask b0 _ _ _ (by omega)
  have hvshift : (v <<< ls) % 2 ^ 8 = v * 2 ^ ls := by
    rw [Nat.shiftLeft_eq]
    apply Nat.mod_eq_of_lt
    calc v * 2 ^ ls < 2 ^ w * 2 ^ ls := (Nat.mul_lt_mul_right hp_ls).mpr hv
    _ = 2 ^ (w + ls) := by rw [← pow_add]
    _ ≤ 2 ^ 8 := Nat.pow_le_pow_right (by norm_num) (by omega)
  -- small div since b0 < 256
  have hhi_lt : b0 / 2 ^ (ls + w) < 2 ^ (8 - ls - w) := by
    rw [Nat.div_lt_iff_lt_mul hp_lsw, ← pow_add]
    calc b0 < 256 := hb0
    _ = 2 ^ 8 := by norm_num
    _ ≤ 2 ^ (8 - ls - w + (ls + w)) := Nat.pow_le_pow_right (by norm_num) (by omega)
  have hhi_mod : b0 / 2 ^ (ls + w) % 2 ^ (8 - ls - w) = b0 / 2 ^ (ls + w) :=
    Nat.mod_eq_of_lt hhi_lt
  -- assemble the or
  have hlor : b = (b0 / 2 ^ (ls + w) * 2 ^ w + v) * 2 ^ ls + b0 % 2 ^ ls := by
    show (b0 &&& (255 - mask w ls % 2 ^ 8)) ||| ((v <<< ls) % 2 ^ 8) = _
    rw [hand, hvshift, hhi_mod]
    have hre : b0 / 2 ^ (ls + w) * 2 ^ (ls + w) + b0 % 2 ^ ls =
        (b0 / 2 ^ (ls + w) * 2 ^ w) * 2 ^ ls + b0 % 2 ^ ls := by
      rw [e1]; ring
    rw [hre, lor_structured _ _ _ _ (Nat.mod_lt _ hp_ls),
      lor_mul_pow_add _ _ _ hv]
  have hmod : b0 % 2 ^ ls < 2 ^ ls := Nat.mod_lt _ hp_ls
  refine ⟨?_, ?_, ?_, ?_⟩
  · rw [hlor, mul_comm (b0 / 2 ^ (ls + w) * 2 ^ w + v) (2 ^ ls), Nat.mul_add_mod]
    exact Nat.mod_mod_of_dvd _ dvd_rfl
  · rw [hlor]
    have h1 : (b0 / 2 ^ (ls + w) * 2 ^ w + v) * 2 ^ ls + b0 % 2 ^ ls =
        2 ^ (ls + w) * (b0 / 2 ^ (ls + w)) + (v * 2 ^ ls + b0 % 2 ^ ls) := by
      rw [e1]; ring
    rw [h1, Nat.mul_add_div hp_lsw]
    have h2 : v * 2 ^ ls + b0 % 2 ^ ls < 2 ^ (ls + w) := by
      calc v * 2 ^ ls + b0 % 2 ^ ls < v * 2 ^ ls + 2 ^ ls := by omega
      _ = (v + 1) * 2 ^ ls := by ring
      _ ≤ 2 ^ w * 2 ^ ls := Nat.mul_le_mul_right _ (by omega)
      _ = 2 ^ (ls + w) := by rw [← pow_add]; congr 1; omega
    rw [Nat.div_eq_of_lt h2]
    omega
  · rw [hlor, mul_comm (b0 / 2 ^ (ls + w) * 2 ^ w + v) (2 ^ ls),
      Nat.mul_add_div hp_ls, Nat.div_eq_of_lt hmod, Nat.add_zero,
      mul_comm (b0 / 2 ^ (ls + w)) (2 ^ w), Nat.mul_add_mod,
      Nat.mod_eq_of_lt hv]
  · rw [hlor]
    have h5 : b0 / 2 ^ (ls + w) * 2 ^ w + v + 1 ≤ 2 ^ (8 - ls - w) * 2 ^ w := by
      have h3 : b0 / 2 ^ (ls + w) * 2 ^ w ≤ (2 ^ (8 - ls - w) - 1) * 2 ^ w :=
        Nat.mul_le_mul_right _ (by omega)
      have h4 : ((2:Nat) ^ (8 - ls - w) - 1) * 2 ^ w =
          2 ^ (8 - ls - w) * 2 ^ w - 2 ^ w := by
        rw [Nat.sub_mul, one_mul]
      have h6 : (2:Nat) ^ w ≤ 2 ^ (8 - ls - w) * 2 ^ w :=
        Nat.le_mul_of_pos_left _ (Nat.pos_pow_of_pos _ (by norm_num))
      omega
    calc (b0 / 2 ^ (ls + w) * 2 ^ w + v) * 2 ^ ls + b0 % 2 ^ ls
        < (b0 / 2 ^ (ls + w) * 2 ^ w + v) * 2 ^ ls + 2 ^ ls := by omega
    _ = (b0 / 2 ^ (ls + w) * 2 ^ w + v + 1) * 2 ^ ls := by ring
    _ ≤ 2 ^ (8 - ls - w) * 2 ^ w * 2 ^ ls := Nat.mul_le_mul_right _ h5
    _ = 2 ^ (8 - ls - w + w + ls) := by rw [← pow_add, ← pow_add]
    _ ≤ 2 ^ 8 := Nat.pow_le_pow_right (by norm_num) (by omega)
    _ = 256 := by norm_num

theorem mask_mod_eq (w : Nat) (hw8 : w ≤ 8) : mask w 0 % 2 ^ 8 = 2 ^ w - 1 := by
  unfold mask
  rw [Nat.shiftLeft_eq, pow_zero, mul_one]
  have h1 : (2:Nat) ^ w ≤ 2 ^ 8 := Nat.pow_le_pow_right (by norm_num) hw8
  have h2 : (2:Nat) ^ 8 < 2 ^ 32 := by norm_num
  rw [Nat.mod_eq_of_lt (by omega), Nat.mod_eq_of_lt (by omega)]

/-- One-byte branch of `getRegister`, in arithmetic form. -/
theorem getRegister_fits (data : List Nat) (w j : Nat) (hw8 : w ≤ 8)
    (hfits : w ≤ 8 - j * w % 8) :
    getRegister data w j =
      data.getD (j * w / 8) 0 / 2 ^ (8 - j * w % 8 - w) % 2 ^ w := by
  simp only [getRegister]
  rw [if_pos hfits, mask_mod_eq w hw8, Nat.shiftRight_eq_div_pow,
    Nat.and_pow_two_sub_one_eq_mod]

/-- Two-byte branch of `getRegister`, in arithmetic form. -/
theorem getRegister_straddle (data : List Nat) (w j : Nat) (hw8 : w ≤ 8)
    (hstr : ¬ w ≤ 8 - j * w % 8)
    (hb1 : data.getD (j * w / 8 + 1) 0 < 256) :
    getRegister data w j =
      data.getD (j * w / 8) 0 % 2 ^ (8 - j * w % 8) * 2 ^ (w - (8 - j * w % 8)) +
        data.getD (j * w / 8 + 1) 0 / 2 ^ (8 - (w - (8 - j * w % 8))) := by
  have hoff : j * w % 8 < 8 := Nat.mod_lt _ (by norm_num)
  set off := j * w % 8 with hoffdef
  set nb := w - (8 - off) with hnb
  set b0 := data.getD (j * w / 8) 0 with hb0def
  set b1 := data.getD (j * w / 8 + 1) 0 with hb1def
  have hnb1 : 1 ≤ nb := by omega
  have hnb8 : nb < 8 := by omega
  have hnboff : nb ≤ off := by omega
  simp only [getRegister]
  rw [if_neg hstr, mask_mod_eq w hw8, Nat.shiftLeft_eq, Nat.shiftRight_eq_div_pow,
    Nat.and_pow_two_sub_one_eq_mod]
  have h8 : (2:Nat) ^ 8 = 2 ^ (8 - nb) * 2 ^ nb := by rw [← pow_add]; congr 1; omega
  rw [h8, Nat.mul_mod_mul_right]
  have hb1lt : b1 / 2 ^ (8 - nb) < 2 ^ nb := by
    rw [Nat.div_lt_iff_lt_mul (Nat.pos_pow_of_pos _ (by norm_num)), ← pow_add]
    calc b1 < 256 := hb1
    _ = 2 ^ 8 := by norm_num
    _ ≤ 2 ^ (nb + (8 - nb)) := Nat.pow_le_pow_right (by norm_num) (by omega)
  rw [lor_mul_pow_add _ _ _ hb1lt]
  -- split the first byte's contribution at 2^(8-off)
  have hdvd : (2:Nat) ^ (8 - off) ∣ 2 ^ (8 - nb) :=
    Nat.pow_dvd_pow 2 (by omega)
  have hmm : b0 % 2 ^ (8 - nb) % 2 ^ (8 - off) = b0 % 2 ^ (8 - off) :=
    Nat.mod_mod_of_dvd _ hdvd
  have hsplit : b0 % 2 ^ (8 - nb) =
      b0 % 2 ^ (8 - nb) / 2 ^ (8 - off) * 2 ^ (8 - off) + b0 % 2 ^ (8 - off) := by
    conv_lhs => rw [← Nat.div_add_mod (b0 % 2 ^ (8 - nb)) (2 ^ (8 - off))]
    rw [hmm, mul_comm]
  have hw_eq : (2:Nat) ^ (8 - off) * 2 ^ nb = 2 ^ w := by
    rw [← pow_add]; congr 1; omega
  have hform : b0 % 2 ^ (8 - nb) * 2 ^ nb + b1 / 2 ^ (8 - nb) =
      2 ^ w * (b0 % 2 ^ (8 - nb) / 2 ^ (8 - off)) +
        (b0 % 2 ^ (8 - off) * 2 ^ nb + b1 / 2 ^ (8 - nb)) := by
    conv_lhs => rw [hsplit]
    rw [← hw_eq]; ring
  have hRlt : b0 % 2 ^ (8 - off) * 2 ^ nb + b1 / 2 ^ (8 - nb) < 2 ^ w := by
    have h1 : b0 % 2 ^ (8 - off) < 2 ^ (8 - off) :=
      Nat.mod_lt _ (Nat.pos_pow_of_pos _ (by norm_num))
    have h2 : b0 % 2 ^ (8 - off) * 2 ^ nb ≤ (2 ^ (8 - off) - 1) * 2 ^ nb :=
      Nat.mul_le_mul_right _ (by omega)
    have h3 : ((2:Nat) ^ (8 - off) - 1) * 2 ^ nb = 2 ^ (8 - off) * 2 ^ nb - 2 ^ nb := by
      rw [Nat.sub_mul, one_mul]
    have h4 : (0:Nat) < 2 ^ nb := Nat.pos_pow_of_pos _ (by norm_num)
    have h5 : (2:Nat) ^ nb ≤ 2 ^ w := Nat.pow_le_pow_right (by norm_num) (by omega)
    rw [h3, hw_eq] at h2
    omega
  rw [hform, Nat.mul_add_mod, Nat.mod_eq_of_lt hRlt]

/-- First byte written by the two-byte branch of `setRegister`. -/
theorem setByte0_straddle (b0 v w off : Nat) (hb0 : b0 < 256) (hv : v < 2 ^ w)
    (hw8 : w ≤ 8) (hoff : off < 8) (hstr : 8 < w + off) :
    let nb := w - (8 - off)
    let b := (b0 &&& (255 - mask (8 - off) 0 % 2 ^ 8)) ||| (v >>> nb)
    b / 2 ^ (8 - off) = b0 / 2 ^ (8 - off) ∧ b % 2 ^ (8 - off) = v / 2 ^ nb ∧
      b < 256 := by
  intro nb b
  have hnboff : nb ≤ off := by omega
  have hmask0 : mask (8 - off) 0 % 2 ^ 8 = 2 ^ (8 - off) - 1 :=
    mask_mod_eq _ (by omega)
  have hcompl : 255 - (2 ^ (8 - off) - 1) = (2 ^ off - 1) * 2 ^ (8 - off) := by
    have e1 : ((2:Nat) ^ off - 1) * 2 ^ (8 - off) = 2 ^ off * 2 ^ (8 - off) - 2 ^ (8 - off) := by
      rw [Nat.sub_mul, one_mul]
    have e2 : (2:Nat) ^ off * 2 ^ (8 - off) = 2 ^ 8 := by
      rw [← pow_add]; congr 1; omega
    have e3 : (1:Nat) ≤ 2 ^ (8 - off) := Nat.one_le_two_pow
    have e4 : (2:Nat) ^ (8 - off) ≤ 2 ^ 8 := Nat.pow_le_pow_right (by norm_num) (by omega)
    have e5 : (2:Nat) ^ 8 = 256 := by norm_num
    omega
  have hp8off : (0:Nat) < 2 ^ (8 - off) := Nat.pos_pow_of_pos _ (by norm_num)
  have hhi_lt : b0 / 2 ^ (8 - off) < 2 ^ off := by
    rw [Nat.div_lt_iff_lt_mul hp8off, ← pow_add]
    calc b0 < 256 := hb0
    _ = 2 ^ 8 := by norm_num
    _ ≤ 2 ^ (off + (8 - off)) := Nat.pow_le_pow_right (by norm_num) (by omega)
  have hvnb : v >>> nb = v / 2 ^ nb := Nat.shiftRight_eq_div_pow _ _
  have hvnb_lt : v / 2 ^ nb < 2 ^ (8 - off) := by
    rw [Nat.div_lt_iff_lt_mul (Nat.pos_pow_of_pos _ (by norm_num)), ← pow_add]
    calc v < 2 ^ w := hv
    _ ≤ 2 ^ (8 - off + nb) := Nat.pow_le_pow_right (by norm_num) (by omega)
  have hlor : b = b0 / 2 ^ (8 - off) * 2 ^ (8 - off) + v / 2 ^ nb := by
    show (b0 &&& (255 - mask (8 - off) 0 % 2 ^ 8)) ||| (v >>> nb) = _
    rw [hmask0, hcompl, land_mul_pow, Nat.mod_eq_of_lt hhi_lt, hvnb,
      lor_mul_pow_add _ _ _ hvnb_lt]
  refine ⟨?_, ?_, ?_⟩
  · rw [hlor, mul_comm (b0 / 2 ^ (8 - off)) (2 ^ (8 - off)), Nat.mul_add_div hp8off,
      Nat.div_eq_of_lt hvnb_lt]
    omega
  · rw [hlor, mul_comm (b0 / 2 ^ (8 - off)) (2 ^ (8 - off)), Nat.mul_add_mod,
      Nat.mod_eq_of_lt hvnb_lt]
  · rw [hlor]
    have h2 : b0 / 2 ^ (8 - off) * 2 ^ (8 - off) ≤ (2 ^ off - 1) * 2 ^ (8 - off) :=
      Nat.mul_le_mul_right _ (by omega)
    have e1 : ((2:Nat) ^ off - 1) * 2 ^ (8 - off) = 2 ^ off * 2 ^ (8 - off) - 2 ^ (8 - off) := by
      rw [Nat.sub_mul, one_mul]
    have e2 : (2:Nat) ^ off * 2 ^ (8 - off) = 2 ^ 8 := by
      rw [← pow_add]; congr 1; omega
    have e5 : (2:Nat) ^ 8 = 256 := by norm_num
    omega

/-- Second byte written by the two-byte branch of `setRegister`. -/
theorem setByte1_straddle (b1 v w off : Nat) (hv : v < 2 ^ w)
    (hw8 : w ≤ 8) (hoff : off < 8) (hstr : 8 < w + off) :
    let nb := w - (8 - off)
    let b := (b1 &&& (255 - mask nb (8 - nb) % 2 ^ 8)) ||| ((v <<< (8 - nb)) % 2 ^ 8)
    b % 2 ^ (8 - nb) = b1 % 2 ^ (8 - nb) ∧ b / 2 ^ (8 - nb) = v % 2 ^ nb ∧
      b < 256 := by
  intro nb b
  have hnb1 : 1 ≤ nb := by omega
  have hnb8 : nb < 8 := by omega
  have hp8nb : (0:Nat) < 2 ^ (8 - nb) := Nat.pos_pow_of_pos _ (by norm_num)
  have e2 : (2:Nat) ^ nb * 2 ^ (8 - nb) = 2 ^ 8 := by
    rw [← pow_add]; congr 1; omega
  have e5 : (2:Nat) ^ 8 = 256 := by norm_num
  have e6 : (2:Nat) ^ (8 - nb) ≤ 2 ^ 8 := Nat.pow_le_pow_right (by norm_num) (by omega)
  have hmask1 : mask nb (8 - nb) % 2 ^ 8 = (2 ^ nb - 1) * 2 ^ (8 - nb) := by
    unfold mask
    rw [Nat.shiftLeft_eq]
    have e1 : ((2:Nat) ^ nb - 1) * 2 ^ (8 - nb) = 2 ^ nb * 2 ^ (8 - nb) - 2 ^ (8 - nb) := by
      rw [Nat.sub_mul, one_mul]
    have hlt : ((2:Nat) ^ nb - 1) * 2 ^ (8 - nb) < 2 ^ 8 := by omega
    rw [Nat.mod_eq_of_lt (lt_trans hlt (by norm_num)), Nat.mod_eq_of_lt hlt]
  have hcompl : 255 - (2 ^ nb - 1) * 2 ^ (8 - nb) = 2 ^ (8 - nb) - 1 := by
    have e1 : ((2:Nat) ^ nb - 1) * 2 ^ (8 - nb) = 2 ^ nb * 2 ^ (8 - nb) - 2 ^ (8 - nb) := by
      rw [Nat.sub_mul, one_mul]
    omega
  have hvshift : (v <<< (8 - nb)) % 2 ^ 8 = v % 2 ^ nb * 2 ^ (8 - nb) := by
    rw [Nat.shiftLeft_eq]
    have h8 : (2:Nat) ^ 8 = 2 ^ nb * 2 ^ (8 - nb) := e2.symm
    rw [h8, Nat.mul_mod_mul_right]
  have hmod_lt : b1 % 2 ^ (8 - nb) < 2 ^ (8 - nb) := Nat.mod_lt _ hp8nb
  have hlor : b = v % 2 ^ nb * 2 ^ (8 - nb) + b1 % 2 ^ (8 - nb) := by
    show (b1 &&& (255 - mask nb (8 - nb) % 2 ^ 8)) ||| ((v <<< (8 - nb)) % 2 ^ 8) = _
    rw [hmask1, hcompl, Nat.and_pow_two_sub_one_eq_mod, hvshift, Nat.lor_comm,
      lor_mul_pow_add _ _ _ hmod_lt]
  refine ⟨?_, ?_, ?_⟩
  · rw [hlor, mul_comm (v % 2 ^ nb) (2 ^ (8 - nb)), Nat.mul_add_mod]
    exact Nat.mod_mod_of_dvd _ dvd_rfl
  · rw [hlor, mul_comm (v % 2 ^ nb) (2 ^ (8 - nb)), Nat.mul_add_div hp8nb,
      Nat.div_eq_of_lt hmod_lt]
    omega
  · rw [hlor]
    have h1 : v % 2 ^ nb < 2 ^ nb := Nat.mod_lt _ (Nat.pos_pow_of_pos _ (by norm_num))
    have h2 : v % 2 ^ nb * 2 ^ (8 - nb) ≤ (2 ^ nb - 1) * 2 ^ (8 - nb) :=
      Nat.mul_le_mul_right _ (by omega)
    have e1 : ((2:Nat) ^ nb - 1) * 2 ^ (8 - nb) = 2 ^ nb * 2 ^ (8 - nb) - 2 ^ (8 - nb) := by
      rw [Nat.sub_mul, one_mul]
    omega

theorem setRegister_fits_eq (data : List Nat) (w i v : Nat)
    (hfits : w ≤ 8 - i * w % 8) :
    setRegister data w i v = data.set (i * w / 8)
      ((data.getD (i * w / 8) 0 &&& (255 - mask w (8 - w - i * w % 8) % 2 ^ 8)) |||
        ((v <<< (8 - w - i * w % 8)) % 2 ^ 8)) := by
  simp only [setRegister]
  rw [if_pos hfits]

theorem setRegister_straddle_eq (data : List Nat) (w i v : Nat)
    (hstr : ¬ w ≤ 8 - i * w % 8) :
    setRegister data w i v =
      (data.set (i * w / 8)
        ((data.getD (i * w / 8) 0 &&& (255 - mask (8 - i * w % 8) 0 % 2 ^ 8)) |||
          (v >>> (w - (8 - i * w % 8))))).set (i * w / 8 + 1)
        (((data.getD (i * w / 8 + 1) 0) &&&
            (255 - mask (w - (8 - i * w % 8)) (8 - (w - (8 - i * w % 8))) % 2 ^ 8)) |||
          ((v <<< (8 - (w - (8 - i * w % 8)))) % 2 ^ 8)) := by
  simp only [setRegister]
  rw [if_neg hstr]
  congr 1
  rw [getD_set_eq]
  simp

/-- In-bounds facts for register `i` of `m` in a buffer of `m*w/8` bytes. -/
theorem regByte_lt (w m i : Nat) (hw0 : 0 < w) (hw8 : w ≤ 8) (hi : i < m)
    (hdvd : m * w % 8 = 0) :
    i * w / 8 < m * w / 8 ∧
      (¬ w ≤ 8 - i * w % 8 → i * w / 8 + 1 < m * w / 8) := by
  have hle : i * w + w ≤ m * w := by
    calc i * w + w = (i + 1) * w := by ring
    _ ≤ m * w := Nat.mul_le_mul_right _ (by omega)
  constructor
  · omega
  · intro hstr
    omega

/-- Setting register `i` and reading it back returns the value written
(one theorem for both branch shapes). -/
theorem getRegister_setRegister_same (data : List Nat) (w m i v : Nat)
    (hw : w = 5 ∨ w = 6) (hi : i < m) (hlen : data.length = m * w / 8)
    (hdvd : m * w % 8 = 0) (hv : v < 2 ^ w)
    (hbytes : ∀ b ∈ data, b < 256) :
    getRegister (setRegister data w i v) w i = v := by
  have hw0 : 0 < w := by omega
  have hw8 : w ≤ 8 := by omega
  have hoff : i * w % 8 < 8 := Nat.mod_lt _ (by norm_num)
  obtain ⟨hB, hB1⟩ := regByte_lt w m i hw0 hw8 hi hdvd
  rw [← hlen] at hB hB1
  by_cases hfits : w ≤ 8 - i * w % 8
  · rw [setRegister_fits_eq data w i v hfits,
      getRegister_fits _ w i hw8 hfits]
    rw [getD_set_eq]
    rw [if_pos ⟨rfl, hB⟩]
    obtain ⟨h1, h2, h3, h4⟩ :=
      setByte_fits (data.getD (i * w / 8) 0) v w (i * w % 8)
        (getD_lt_256 hbytes _) hv hw0 hw8 hoff (by omega)
    have he : 8 - i * w % 8 - w = 8 - w - i * w % 8 := by omega
    rw [he]
    exact h3
  · rw [setRegister_straddle_eq data w i v hfits]
    set B := i * w / 8 with hBdef
    set off := i * w % 8 with hoffdef
    set nb := w - (8 - off) with hnbdef
    have hB1' := hB1 hfits
    set b0 := data.getD B 0 with hb0def
    set b1 := data.getD (B + 1) 0 with hb1def
    obtain ⟨g1, g2, g3⟩ :=
      setByte0_straddle b0 v w off (getD_lt_256 hbytes _) hv hw8 hoff (by omega)
    obtain ⟨k1, k2, k3⟩ :=
      setByte1_straddle b1 v w off hv hw8 hoff (by omega)
    set b0n := (b0 &&& (255 - mask (8 - off) 0 % 2 ^ 8)) ||| (v >>> nb) with hb0n
    set b1n := (b1 &&& (255 - mask nb (8 - nb) % 2 ^ 8)) |||
      ((v <<< (8 - nb)) % 2 ^ 8) with hb1n
    have hread1 : (((data.set B b0n).set (B + 1) b1n)).getD (B + 1) 0 = b1n := by
      rw [getD_set_eq, if_pos ⟨rfl, by rw [List.length_set]; omega⟩]
    have hread0 : (((data.set B b0n).set (B + 1) b1n)).getD B 0 = b0n := by
      rw [getD_set_eq, if_neg (by omega)]
      rw [getD_set_eq, if_pos ⟨rfl, by omega⟩]
    rw [getRegister_straddle _ w i hw8 hfits (by rw [hread1]; exact k3)]
    rw [hread0, hread1, ← hoffdef, ← hnbdef, g2, k2, mul_comm (v / 2 ^ nb) (2 ^ nb)]
    exact Nat.div_add_mod v (2 ^ nb)

/-- Setting register `i` leaves every other register `j ≠ i` unchanged. -/
theorem getRegister_setRegister_ne (data : List Nat) (w m i j v : Nat)
    (hw : w = 5 ∨ w = 6) (hi : i < m) (hj : j < m) (hij : i ≠ j)
    (hlen : data.length = m * w / 8) (hdvd : m * w % 8 = 0) (hv : v < 2 ^ w)
    (hbytes : ∀ b ∈ data, b < 256) :
    getRegister (setRegister data w i v) w j = getRegister data w j := by
  have hw0 : 0 < w := by omega
  have hw8 : w ≤ 8 := by omega
  have hoff : i * w % 8 < 8 := Nat.mod_lt _ (by norm_num)
  have hoffj : j * w % 8 < 8 := Nat.mod_lt _ (by norm_num)
  obtain ⟨hB, hB1⟩ := regByte_lt w m i hw0 hw8 hi hdvd
  rw [← hlen] at hB hB1
  have hiw : 8 * (i * w / 8) + i * w % 8 = i * w := Nat.div_add_mod _ 8
  have hjw : 8 * (j * w / 8) + j * w % 8 = j * w := Nat.div_add_mod _ 8
  have hglob : i * w + w ≤ j * w ∨ j * w + w ≤ i * w := by
    rcases Nat.lt_or_ge i j with h | h
    · left
      calc i * w + w = (i + 1) * w := by ring
      _ ≤ j * w := Nat.mul_le_mul_right _ (by omega)
    · right
      calc j * w + w = (j + 1) * w := by ring
      _ ≤ i * w := Nat.mul_le_mul_right _ (by omega)
  set B := i * w / 8 with hBdef
  set off := i * w % 8 with hoffdef
  set C := j * w / 8 with hCdef
  set offj := j * w % 8 with hoffjdef
  have hbyte256 : ∀ n, data.getD n 0 < 256 := getD_lt_256 hbytes
  by_cases hfits : w ≤ 8 - off
  · -- the write touches only byte B
    rw [setRegister_fits_eq data w i v hfits]
    rw [← hBdef, ← hoffdef]
    set b0n := (data.getD B 0 &&& (255 - mask w (8 - w - off) % 2 ^ 8)) |||
      ((v <<< (8 - w - off)) % 2 ^ 8) with hb0n
    obtain ⟨f1, f2, f3, f4⟩ :=
      setByte_fits (data.getD B 0) v w off (hbyte256 B) hv hw0 hw8 hoff (by omega)
    have hgetD : ∀ n, n ≠ B → (data.set B b0n).getD n 0 = data.getD n 0 := by
      intro n hn
      rw [getD_set_eq, if_neg (by omega)]
    have hgetDB : (data.set B b0n).getD B 0 = b0n := by
      rw [getD_set_eq, if_pos ⟨rfl, hB⟩]
    by_cases hfitsj : w ≤ 8 - offj
    · rw [getRegister_fits _ w j hw8 hfitsj, getRegister_fits data w j hw8 hfitsj,
        ← hCdef, ← hoffjdef]
      by_cases hCB : C = B
      · rw [hCB, hgetDB]
        rcases hglob with h | h
        · exact field_frame_low f1 (by omega)
        · exact field_frame_high f2 (by omega)
      · rw [hgetD C hCB]
    · have hb1new : (data.set B b0n).getD (C + 1) 0 < 256 := by
        by_cases h : C + 1 = B
        · rw [h, hgetDB]; exact f4
        · rw [hgetD _ h]; exact hbyte256 _
      rw [getRegister_straddle _ w j hw8 hfitsj hb1new,
        getRegister_straddle data w j hw8 hfitsj (hbyte256 _), ← hCdef, ← hoffjdef]
      set nbj := w - (8 - offj) with hnbj
      have hdm : ∀ b : Nat, b < 256 → b / 2 ^ (8 - nbj) = b / 2 ^ (8 - nbj) % 2 ^ nbj := by
        intro b hb
        symm
        apply Nat.mod_eq_of_lt
        rw [Nat.div_lt_iff_lt_mul (Nat.pos_pow_of_pos _ (by norm_num)), ← pow_add]
        calc b < 256 := hb
        _ = 2 ^ 8 := by norm_num
        _ ≤ 2 ^ (nbj + (8 - nbj)) := Nat.pow_le_pow_right (by norm_num) (by omega)
      congr 1
      · -- first byte of j
        by_cases hCB : C = B
        · rw [hCB, hgetDB]
          congr 1
          have h1 : b0n % 2 ^ (8 - offj) = b0n / 2 ^ 0 % 2 ^ (8 - offj) := by
            rw [pow_zero, Nat.div_one]
          have h2 : data.getD B 0 % 2 ^ (8 - offj) =
              data.getD B 0 / 2 ^ 0 % 2 ^ (8 - offj) := by
            rw [pow_zero, Nat.div_one]
          rw [h1, h2]
          exact field_frame_low f1 (by omega)
        · rw [hgetD C hCB]
      · -- second byte of j
        by_cases hCB : C + 1 = B
        · rw [hCB, hgetDB, hdm b0n f4, hdm (data.getD B 0) (hbyte256 B)]
          exact field_frame_high f2 (by omega)
        · rw [hgetD _ hCB]
  · -- the write touches bytes B and B+1
    rw [setRegister_straddle_eq data w i v hfits]
    rw [← hBdef, ← hoffdef]
    have hB1' := hB1 hfits
    set nb := w - (8 - off) with hnbdef
    set b0n := (data.getD B 0 &&& (255 - mask (8 - off) 0 % 2 ^ 8)) |||
      (v >>> nb) with hb0n
    set b1n := ((data.getD (B + 1) 0) &&& (255 - mask nb (8 - nb) % 2 ^ 8)) |||
      ((v <<< (8 - nb)) % 2 ^ 8) with hb1n
    obtain ⟨g1, g2, g3⟩ :=
      setByte0_straddle (data.getD B 0) v w off (hbyte256 B) hv hw8 hoff (by omega)
    obtain ⟨k1, k2, k3⟩ :=
      setByte1_straddle (data.getD (B + 1) 0) v w off hv hw8 hoff (by omega)
    have hgetD : ∀ n, n ≠ B → n ≠ B + 1 →
        ((data.set B b0n).set (B + 1) b1n).getD n 0 = data.getD n 0 := by
      intro n h1 h2
      rw [getD_set_eq, if_neg (by omega), getD_set_eq, if_neg (by omega)]
    have hgetDB : ((data.set B b0n).set (B + 1) b1n).getD B 0 = b0n := by
      rw [getD_set_eq, if_neg (by omega), getD_set_eq, if_pos ⟨rfl, hB⟩]
    have hgetDB1 : ((data.set B b0n).set (B + 1) b1n).getD (B + 1) 0 = b1n := by
      rw [getD_set_eq, if_pos ⟨rfl, by rw [List.length_set]; omega⟩]
    have hcontra : ¬ (¬ w ≤ 8 - offj ∧ C = B) := by
      rintro ⟨hstrj, hCB⟩
      omega
    by_cases hfitsj : w ≤ 8 - offj
    · rw [getRegister_fits _ w j hw8 hfitsj, getRegister_fits data w j hw8 hfitsj,
        ← hCdef, ← hoffjdef]
      by_cases hCB : C = B
      · rw [hCB, hgetDB]
        exact field_frame_high g1 (by omega)
      · by_cases hCB1 : C = B + 1
        · rw [hCB1, hgetDB1]
          exact field_frame_low k1 (by omega)
        · rw [hgetD C hCB hCB1]
    · have hCBne : C ≠ B := fun h => hcontra ⟨hfitsj, h⟩
      set nbj := w - (8 - offj) with hnbj
      have hdm : ∀ b : Nat, b < 256 → b / 2 ^ (8 - nbj) = b / 2 ^ (8 - nbj) % 2 ^ nbj := by
        intro b hb
        symm
        apply Nat.mod_eq_of_lt
        rw [Nat.div_lt_iff_lt_mul (Nat.pos_pow_of_pos _ (by norm_num)), ← pow_add]
        calc b < 256 := hb
        _ = 2 ^ 8 := by norm_num
        _ ≤ 2 ^ (nbj + (8 - nbj)) := Nat.pow_le_pow_right (by norm_num) (by omega)
      have hb1new : ((data.set B b0n).set (B + 1) b1n).getD (C + 1) 0 < 256 := by
        by_cases h1 : C + 1 = B
        · rw [h1, hgetDB]; exact g3
        · by_cases h2 : C + 1 = B + 1
          · rw [h2, hgetDB1]; exact k3
          · rw [hgetD _ h1 h2]; exact hbyte256 _
      rw [getRegister_straddle _ w j hw8 hfitsj hb1new,
        getRegister_straddle data w j hw8 hfitsj (hbyte256 _), ← hCdef, ← hoffjdef,
        ← hnbj]
      congr 1
      · -- first byte of j: C = B impossible, C = B+1 possible
        by_cases hCB1 : C = B + 1
        · rw [hCB1, hgetDB1]
          congr 1
          have h1 : b1n % 2 ^ (8 - offj) = b1n / 2 ^ 0 % 2 ^ (8 - offj) := by
            rw [pow_zero, Nat.div_one]
          have h2 : data.getD (B + 1) 0 % 2 ^ (8 - offj) =
              data.getD (B + 1) 0 / 2 ^ 0 % 2 ^ (8 - offj) := by
            rw [pow_zero, Nat.div_one]
          rw [h1, h2]
          exact field_frame_low k1 (by omega)
        · rw [hgetD C hCBne hCB1]
      · -- second byte of j: C+1 = B possible, C+1 = B+1 means C = B impossible
        by_cases hCB : C + 1 = B
        · rw [hCB, hgetDB, hdm b0n g3, hdm (data.getD B 0) (hbyte256 B)]
          exact field_frame_high g1 (by omega)
        · have hCB1 : C + 1 ≠ B + 1 := by omega
          rw [hgetD _ hCB hCB1]

/-- Claim C6.  For every register width `w ∈ {5, 6}`, every buffer of `m`
packed registers (`m·w/8` bytes, `8 ∣ m·w`), every index `i < m`, and every
value `v < 2^w`: `getRegister` after `setRegister data w i v` returns `v`,
and for every other index `j ≠ i` with `j < m`, `getRegister data w j`
returns the same value as before the set. -/
theorem claim6_register_roundtrip (data : List Nat) (w m i v : Nat)
    (hw : w = 5 ∨ w = 6) (hi : i < m) (hlen : data.length = m * w / 8)
    (hdvd : m * w % 8 = 0) (hv : v < 2 ^ w) (hbytes : ∀ b ∈ data, b < 256) :
    getRegister (setRegister data w i v) w i = v ∧
      ∀ j, j < m → j ≠ i →
        getRegister (setRegister data w i v) w j = getRegister data w j := by
  refine ⟨getRegister_setRegister_same data w m i v hw hi hlen hdvd hv hbytes, ?_⟩
  intro j hj hne
  exact getRegister_setRegister_ne data w m i j v hw hi hj
    (fun h => hne h.symm) hlen hdvd hv hbytes

/-- Witness for claim C6 at a concrete input (the `TestRegisterPacking`
vector of hllpp_test.go: width 6, three bytes, `set(1, 38)`). -/
theorem claim6_register_roundtrip_witness :
    (38 < 2 ^ 6) ∧ getRegister (setRegister [0, 0, 0] 6 1 38) 6 1 = 38 ∧
      getRegister (setRegister [0, 0, 0] 6 1 38) 6 2 = getRegister [0, 0, 0] 6 2 := by
  have h := claim6_register_roundtrip [0, 0, 0] 6 4 1 38 (by norm_num) (by norm_num)
    (by decide) (by norm_num) (by norm_num) (by decide)
  exact ⟨by norm_num, h.1, h.2 2 (by norm_num) (by norm_num)⟩

/-! ## Length and size lemmas for the sparse machinery -/

theorem putUvarintFuel_length (f : Nat) :
    ∀ x, (putUvarintFuel f x).length ≤ f + 1 := by
  induction f with
  | zero => intro x; simp [putUvarintFuel]
  | succ f ih =>
    intro x
    unfold putUvarintFuel
    split
    · simp
    · simpa using Nat.succ_le_succ (ih (x / 128))

theorem putUvarint_length (x : Nat) : (putUvarint x).length ≤ 11 :=
  putUvarintFuel_length 10 x

theorem readList_length (fuel : Nat) :
    ∀ rem lastVal, (readList fuel rem lastVal).length ≤ fuel := by
  induction fuel with
  | zero => intro rem lastVal; simp [readList]
  | succ fuel ih =>
    intro rem lastVal
    match rem with
    | [] => simp [readList]
    | b :: rest =>
      show ((_ : Nat) :: readList fuel _ _).length ≤ fuel + 1
      simpa using ih _ _

theorem decodeStream_length (data : List Nat) :
    (decodeStream data).length ≤ data.length + 1 :=
  readList_length _ _ _

theorem insertSorted_length (v : Nat) :
    ∀ l : List Nat, (insertSorted v l).length = l.length + 1 := by
  intro l
  induction l with
  | nil => rfl
  | cons u us ih =>
    unfold insertSorted
    split
    · simp
    · simp [ih]

theorem sortU32_length (l : List Nat) : (sortU32 l).length = l.length := by
  unfold sortU32
  induction l with
  | nil => rfl
  | cons u us ih => simpa [insertSorted_length] using ih

/-! ## Writer size accounting -/

theorem commit_wlen (w : SparseWriter) (hc : w.hasCurrVal = true) :
    w.commit.wlen = w.wlen := by
  simp [SparseWriter.commit, SparseWriter.wlen, hc]

theorem commit_dlen (w : SparseWriter) (hc : w.hasCurrVal = true) :
    w.commit.dlen ≤ w.dlen := by
  simp only [SparseWriter.commit, SparseWriter.dlen, hc, if_true, if_false,
    List.length_append]
  have := putUvarint_length ((w.currVal + 2 ^ 32 - w.lastVal) % 2 ^ 32)
  simp only [show (if false = true then (1 : Nat) else 0) = 0 from rfl,
    show (if true = true then (1 : Nat) else 0) = 1 from rfl]
  omega

theorem append_wlen (w : SparseWriter) (k i r : Nat) :
    (w.append k i r).wlen ≤ w.wlen + 1 := by
  unfold SparseWriter.append
  by_cases hc : w.hasCurrVal = true
  · rw [if_pos hc]
    split
    · split <;> simp [SparseWriter.wlen, hc]
    · have h1 := commit_wlen w hc
      simp only [SparseWriter.wlen, SparseWriter.commit, hc, if_true,
        if_false] at h1 ⊢
      omega
  · rw [if_neg hc]
    simp only [Bool.not_eq_true] at hc
    simp [SparseWriter.wlen, hc]

theorem append_dlen (w : SparseWriter) (k i r : Nat) :
    (w.append k i r).dlen ≤ w.dlen + 11 := by
  unfold SparseWriter.append
  by_cases hc : w.hasCurrVal = true
  · rw [if_pos hc]
    split
    · split <;> simp [SparseWriter.dlen, hc]
    · have h1 := commit_dlen w hc
      simp only [SparseWriter.dlen, SparseWriter.commit, hc, if_true, if_false,
        List.length_append] at h1 ⊢
      have := putUvarint_length ((w.currVal + 2 ^ 32 - w.lastVal) % 2 ^ 32)
      omega
  · rw [if_neg hc]
    simp only [Bool.not_eq_true] at hc
    simp [SparseWriter.dlen, hc]

theorem flush_length (w : SparseWriter) : w.flush.length = w.wlen := by
  unfold SparseWriter.flush
  by_cases hc : w.hasCurrVal = true
  · simp [hc, SparseWriter.commit, SparseWriter.wlen]
  · simp only [Bool.not_eq_true] at hc
    simp [hc, SparseWriter.wlen]

theorem flush_data_length (w : SparseWriter) : w.flush.data.length ≤ w.dlen := by
  unfold SparseWriter.flush
  by_cases hc : w.hasCurrVal = true
  · simp only [hc, if_true, SparseWriter.commit, SparseWriter.dlen,
      List.length_append]
    have := putUvarint_length ((w.currVal + 2 ^ 32 - w.lastVal) % 2 ^ 32)
    omega
  · simp only [Bool.not_eq_true] at hc
    simp [hc, SparseWriter.dlen]

theorem mergeLoop_wlen (p pp : Nat) :
    ∀ fuel (w : SparseWriter) (ss ts : List Nat),
      (mergeLoop p pp fuel w ss ts).wlen ≤ w.wlen + ss.length + ts.length := by
  intro fuel
  induction fuel with
  | zero => intro w ss ts; simp only [mergeLoop]; omega
  | succ fuel ih =>
    intro w ss ts
    match ss, ts with
    | [], [] => simp only [mergeLoop]; omega
    | [], t :: ts =>
      show ((mergeLoop p pp fuel (w.append t _ _) [] ts)).wlen ≤ _
      have h1 := ih (w.append t (decodeHash p pp t pp).1 (decodeHash p pp t pp).2) [] ts
      have h2 := append_wlen w t (decodeHash p pp t pp).1 (decodeHash p pp t pp).2
      simp only [List.length_nil, List.length_cons] at h1 ⊢
      omega
    | s :: ss, [] =>
      show ((mergeLoop p pp fuel (w.append s _ _) ss [])).wlen ≤ _
      have h1 := ih (w.append s (decodeHash p pp s pp).1 (decodeHash p pp s pp).2) ss []
      have h2 := append_wlen w s (decodeHash p pp s pp).1 (decodeHash p pp s pp).2
      simp only [List.length_nil, List.length_cons] at h1 ⊢
      omega
    | s :: ss, t :: ts =>
      show (if (decodeHash p pp s pp).1 < (decodeHash p pp t pp).1 then
          mergeLoop p pp fuel (w.append s (decodeHash p pp s pp).1 (decodeHash p pp s pp).2) ss (t :: ts)
        else if (decodeHash p pp t pp).1 < (decodeHash p pp s pp).1 then
          mergeLoop p pp fuel (w.append t (decodeHash p pp t pp).1 (decodeHash p pp t pp).2) (s :: ss) ts
        else if (decodeHash p pp t pp).2 < (decodeHash p pp s pp).2 then
          mergeLoop p pp fuel (w.append s (decodeHash p pp s pp).1 (decodeHash p pp s pp).2) ss ts
        else mergeLoop p pp fuel (w.append t (decodeHash p pp t pp).1 (decodeHash p pp t pp).2) ss ts).wlen ≤ _
      split
      · have h1 := ih (w.append s (decodeHash p pp s pp).1 (decodeHash p pp s pp).2) ss (t :: ts)
        have h2 := append_wlen w s (decodeHash p pp s pp).1 (decodeHash p pp s pp).2
        simp only [List.length_cons] at h1 ⊢
        omega
      · split
        · have h1 := ih (w.append t (decodeHash p pp t pp).1 (decodeHash p pp t pp).2) (s :: ss) ts
          have h2 := append_wlen w t (decodeHash p pp t pp).1 (decodeHash p pp t pp).2
          simp only [List.length_cons] at h1 ⊢
          omega
        · split
          · have h1 := ih (w.append s (decodeHash p pp s pp).1 (decodeHash p pp s pp).2) ss ts
            have h2 := append_wlen w s (decodeHash p pp s pp).1 (decodeHash p pp s pp).2
            simp only [List.length_cons] at h1 ⊢
            omega
          · have h1 := ih (w.append t (decodeHash p pp t pp).1 (decodeHash p pp t pp).2) ss ts
            have h2 := append_wlen w t (decodeHash p pp t pp).1 (decodeHash p pp t pp).2
            simp only [List.length_cons] at h1 ⊢
            omega

theorem mergeLoop_dlen (p pp : Nat) :
    ∀ fuel (w : SparseWriter) (ss ts : List Nat),
      (mergeLoop p pp fuel w ss ts).dlen ≤
        w.dlen + 11 * (ss.length + ts.length) := by
  intro fuel
  induction fuel with
  | zero => intro w ss ts; simp only [mergeLoop]; omega
  | succ fuel ih =>
    intro w ss ts
    match ss, ts with
    | [], [] => simp only [mergeLoop]; omega
    | [], t :: ts =>
      show ((mergeLoop p pp fuel (w.append t _ _) [] ts)).dlen ≤ _
      have h1 := ih (w.append t (decodeHash p pp t pp).1 (decodeHash p pp t pp).2) [] ts
      have h2 := append_dlen w t (decodeHash p pp t pp).1 (decodeHash p pp t pp).2
      simp only [List.length_nil, List.length_cons] at h1 ⊢
      omega
    | s :: ss, [] =>
      show ((mergeLoop p pp fuel (w.append s _ _) ss [])).dlen ≤ _
      have h1 := ih (w.append s (decodeHash p pp s pp).1 (decodeHash p pp s pp).2) ss []
      have h2 := append_dlen w s (decodeHash p pp s pp).1 (decodeHash p pp s pp).2
      simp only [List.length_nil, List.length_cons] at h1 ⊢
      omega
    | s :: ss, t :: ts =>
      show (if (decodeHash p pp s pp).1 < (decodeHash p pp t pp).1 then
          mergeLoop p pp fuel (w.append s (decodeHash p pp s pp).1 (decodeHash p pp s pp).2) ss (t :: ts)
        else if (decodeHash p pp t pp).1 < (decodeHash p pp s pp).1 then
          mergeLoop p pp fuel (w.append t (decodeHash p pp t pp).1 (decodeHash p pp t pp).2) (s :: ss) ts
        else if (decodeHash p pp t pp).2 < (decodeHash p pp s pp).2 then
          mergeLoop p pp fuel (w.append s (decodeHash p pp s pp).1 (decodeHash p pp s pp).2) ss ts
        else mergeLoop p pp fuel (w.append t (decodeHash p pp t pp).1 (decodeHash p pp t pp).2) ss ts).dlen ≤ _
      split
      · have h1 := ih (w.append s (decodeHash p pp s pp).1 (decodeHash p pp s pp).2) ss (t :: ts)
        have h2 := append_dlen w s (decodeHash p pp s pp).1 (decodeHash p pp s pp).2
        simp only [List.length_cons] at h1 ⊢
        omega
      · split
        · have h1 := ih (w.append t (decodeHash p pp t pp).1 (decodeHash p pp t pp).2) (s :: ss) ts
          have h2 := append_dlen w t (decodeHash p pp t pp).1 (decodeHash p pp t pp).2
          simp only [List.length_cons] at h1 ⊢
          omega
        · split
          · have h1 := ih (w.append s (decodeHash p pp s pp).1 (decodeHash p pp s pp).2) ss ts
            have h2 := append_dlen w s (decodeHash p pp s pp).1 (decodeHash p pp s pp).2
            simp only [List.length_cons] at h1 ⊢
            omega
          · have h1 := ih (w.append t (decodeHash p pp t pp).1 (decodeHash p pp t pp).2) ss ts
            have h2 := append_dlen w t (decodeHash p pp t pp).1 (decodeHash p pp t pp).2
            simp only [List.length_cons] at h1 ⊢
            omega

theorem newSparseWriter_wlen : newSparseWriter.wlen = 0 := rfl

theorem newSparseWriter_dlen : newSparseWriter.dlen = 0 := rfl

/-! ## Field preservation of the state-machine operations -/

theorem flushTmpSet_nil (h : HLLPP) (ht : h.tmpSet = []) : flushTmpSet h = h := by
  simp [flushTmpSet, ht]

theorem flushTmpSet_fields (h : HLLPP) :
    (flushTmpSet h).p = h.p ∧ (flushTmpSet h).pp = h.pp ∧
      (flushTmpSet h).m = h.m ∧ (flushTmpSet h).mp = h.mp ∧
      (flushTmpSet h).sparse = h.sparse ∧
      (flushTmpSet h).bitsPerRegister = h.bitsPerRegister ∧
      (flushTmpSet h).defaultHasher = h.defaultHasher ∧
      (flushTmpSet h).tmpSet = [] := by
  unfold flushTmpSet
  split
  · next ht => simp [ht]
  · simp

theorem flushTmpSet_size (h : HLLPP) (ht : h.tmpSet ≠ []) :
    (flushTmpSet h).sparseLength ≤ h.data.length + 1 + h.tmpSet.length ∧
      (flushTmpSet h).data.length ≤
        11 * (h.data.length + 1 + h.tmpSet.length) := by
  unfold flushTmpSet
  rw [if_neg ht]
  have hw := mergeLoop_wlen h.p h.pp
    ((decodeStream h.data).length + (sortU32 h.tmpSet).length + 1)
    newSparseWriter (decodeStream h.data) (sortU32 h.tmpSet)
  have hd := mergeLoop_dlen h.p h.pp
    ((decodeStream h.data).length + (sortU32 h.tmpSet).length + 1)
    newSparseWriter (decodeStream h.data) (sortU32 h.tmpSet)
  have hfl := flush_length (mergeLoop h.p h.pp
    ((decodeStream h.data).length + (sortU32 h.tmpSet).length + 1)
    newSparseWriter (decodeStream h.data) (sortU32 h.tmpSet))
  have hfd := flush_data_length (mergeLoop h.p h.pp
    ((decodeStream h.data).length + (sortU32 h.tmpSet).length + 1)
    newSparseWriter (decodeStream h.data) (sortU32 h.tmpSet))
  have h1 := decodeStream_length h.data
  have h2 := sortU32_length h.tmpSet
  rw [newSparseWriter_wlen] at hw
  rw [newSparseWriter_dlen] at hd
  dsimp only
  constructor
  · omega
  · omega

theorem setRegister_length (data : List Nat) (w i v : Nat) :
    (setRegister data w i v).length = data.length := by
  unfold setRegister
  dsimp only
  split <;> simp

theorem toNormalScan_length (p pp bits : Nat) :
    ∀ (l nd nd2 : List Nat), toNormalScan p pp bits l nd = some nd2 →
      nd2.length = nd.length := by
  intro l
  induction l with
  | nil =>
    intro nd nd2 hs
    rw [show toNormalScan p pp bits [] nd = some nd from rfl] at hs
    cases hs
    rfl
  | cons k rest ih =>
    intro nd nd2 hs
    simp only [toNormalScan] at hs
    split at hs
    · exact absurd hs (by simp)
    · have := ih _ _ hs
      split at this <;> simp_all [setRegister_length]

theorem toNormalScan_six_some (p pp : Nat) :
    ∀ (l nd : List Nat), ∃ nd2, toNormalScan p pp 6 l nd = some nd2 := by
  intro l
  induction l with
  | nil => intro nd; exact ⟨nd, rfl⟩
  | cons k rest ih =>
    intro nd
    unfold toNormalScan
    rw [if_neg]
    · exact ih _
    · rintro ⟨-, h5⟩
      exact absurd h5 (by norm_num)

theorem toNormal_spec (h : HLLPP) (hb : h.bitsPerRegister = 0) :
    (toNormal h).sparse = false ∧ (toNormal h).p = h.p ∧
      (toNormal h).pp = h.pp ∧ (toNormal h).m = h.m ∧
      (toNormal h).mp = h.mp ∧ (toNormal h).tmpSet = [] ∧
      (toNormal h).sparseLength = h.sparseLength ∧
      (toNormal h).defaultHasher = h.defaultHasher ∧
      ((toNormal h).bitsPerRegister = 5 ∨ (toNormal h).bitsPerRegister = 6) ∧
      (toNormal h).data.length = h.m * (toNormal h).bitsPerRegister / 8 := by
  unfold toNormal
  rw [hb]
  simp only [if_pos rfl]
  rcases hscan : toNormalScan h.p h.pp 5 (decodeStream h.data)
      (List.replicate (h.m * 5 / 8) 0) with _ | nd
  · obtain ⟨nd2, h6⟩ := toNormalScan_six_some h.p h.pp (decodeStream h.data)
      (List.replicate (h.m * 6 / 8) 0)
    rw [h6]
    have hlen := toNormalScan_length h.p h.pp 6 _ _ _ h6
    simp_all
  · have hlen := toNormalScan_length h.p h.pp 5 _ _ _ hscan
    simp_all

theorem foldl_setRegister_length (d : List Nat) :
    ∀ (l acc : List Nat),
      (l.foldl (fun nd i => setRegister nd 6 i (getRegister d 5 i)) acc).length
        = acc.length := by
  intro l
  induction l with
  | nil => intro acc; rfl
  | cons a l ih =>
    intro acc
    simp only [List.foldl_cons]
    rw [ih]
    exact setRegister_length acc 6 a (getRegister d 5 a)

theorem Add_sparse_def (h : HLLPP) (x : Nat) (hs : h.sparse = true) :
    Add h x =
      (let h1 : HLLPP := { h with tmpSet := h.tmpSet ++ [encodeHash h.p h.pp x] }
      if 6 * h1.m / 4 ≤ 4 * h1.tmpSet.length * 8 then
        let h2 := flushTmpSet h1
        if 6 * h2.m ≤ h2.data.length * 8 then toNormal h2 else h2
      else h1) := by
  unfold Add
  rw [if_pos hs]

theorem Add_dense_def (h : HLLPP) (x : Nat) (hs : h.sparse = false) :
    Add h x =
      (let idx := sliceBits64 x 63 (64 - h.p)
      let r := rho ((x <<< h.p) % 2 ^ 64 ||| 1 <<< (h.p - 1))
      let h1 :=
        if 31 < r ∧ h.bitsPerRegister = 5 then
          { h with
            bitsPerRegister := 6
            data := (List.range h.m).foldl
              (fun nd i => setRegister nd 6 i (getRegister h.data 5 i))
              (List.replicate (h.m * 6 / 8) 0) }
        else h
      if getRegister h1.data h1.bitsPerRegister idx < r then
        { h1 with data := setRegister h1.data h1.bitsPerRegister idx r }
      else h1) := by
  unfold Add
  rw [if_neg (by simp [hs])]

/-- `NewWithConfig` establishes the invariant. -/
theorem newWithConfig_inv (c : Config) (h : HLLPP)
    (hc : NewWithConfig c = some h) : Inv h := by
  unfold NewWithConfig at hc
  set P := if c.precision = 0 then 14 else c.precision with hP
  set SP := if c.sparsePrecision = 0 then 25 else c.sparsePrecision with hSP
  set HS := if c.hasHasher = true then c.hasherSize else 20 with hHS
  by_cases h1 : P < 4 ∨ 16 < P ∨ SP < P ∨ 25 < SP
  · rw [if_pos h1] at hc; cases hc
  · rw [if_neg h1] at hc
    by_cases h2 : HS < 8
    · rw [if_pos h2] at hc; cases hc
    · rw [if_neg h2] at hc
      push_neg at h1
      obtain ⟨h4, h16, hps, h25⟩ := h1
      injection hc with hc
      subst hc
      have hPpos : 0 < 2 ^ P := Nat.pos_pow_of_pos _ (by norm_num)
      unfold Inv
      refine ⟨h4, h16, hps, h25, rfl, rfl, Nat.zero_le _, ?_, ?_⟩
      · intro _
        refine ⟨?_, rfl, ?_⟩
        · simp only [List.length_nil, Nat.mul_zero]
          omega
        · simp only [List.length_nil, Nat.mul_zero]
          omega
      · intro hfalse
        cases hfalse

/-- `Add` preserves the invariant. -/
theorem add_inv (h : HLLPP) (x : Nat) (hinv : Inv h) : Inv (Add h x) := by
  obtain ⟨hp4, hp16, hppl, hpp25, hm, hmp, hsl, hsp, hde⟩ := hinv
  have hm16 : 16 ≤ h.m := by
    rw [hm]
    calc (16 : Nat) = 2 ^ 4 := by norm_num
    _ ≤ 2 ^ h.p := Nat.pow_le_pow_right (by norm_num) hp4
  by_cases hs : h.sparse = true
  · obtain ⟨hdata, hbits, htmp⟩ := hsp hs
    rw [Add_sparse_def h x hs]
    set h1 : HLLPP := { h with tmpSet := h.tmpSet ++ [encodeHash h.p h.pp x] }
      with hh1
    have h1p : h1.p = h.p := rfl
    have h1pp : h1.pp = h.pp := rfl
    have h1m : h1.m = h.m := rfl
    have h1mp : h1.mp = h.mp := rfl
    have h1sp : h1.sparse = h.sparse := rfl
    have h1b : h1.bitsPerRegister = h.bitsPerRegister := rfl
    have h1d : h1.data = h.data := rfl
    have h1sl : h1.sparseLength = h.sparseLength := rfl
    have h1t : h1.tmpSet.length = h.tmpSet.length + 1 := by
      rw [hh1]; simp
    dsimp only
    split
    · -- flush triggered
      next hfl =>
      rw [h1m, h1t] at hfl
      have hne : h1.tmpSet ≠ [] := by rw [hh1]; simp
      have hsz := flushTmpSet_size h1 hne
      rw [h1d, h1t] at hsz
      obtain ⟨hfp, hfpp, hfm, hfmp, hfsp, hfb, hfd, hft⟩ := flushTmpSet_fields h1
      rw [h1p] at hfp
      rw [h1pp] at hfpp
      rw [h1m] at hfm
      rw [h1mp] at hfmp
      rw [h1sp, hs] at hfsp
      rw [h1b, hbits] at hfb
      have hslf : (flushTmpSet h1).sparseLength ≤ 8 * h.m := by omega
      split
      · -- promote to dense
        next hpromote =>
        have hts := toNormal_spec (flushTmpSet h1) hfb
        obtain ⟨t1, t2, t3, t4, t5, t6, t7, t8, t9, t10⟩ := hts
        unfold Inv
        refine ⟨?_, ?_, ?_, ?_, ?_, ?_, ?_, ?_, ?_⟩
        · rw [t2, hfp]; exact hp4
        · rw [t2, hfp]; exact hp16
        · rw [t2, t3, hfp, hfpp]; exact hppl
        · rw [t3, hfpp]; exact hpp25
        · rw [t4, t2, hfm, hfp]; exact hm
        · rw [t5, t3, hfmp, hfpp]; exact hmp
        · rw [t7, t4, hfm]; exact hslf
        · intro hst; rw [t1] at hst; cases hst
        · intro _
          refine ⟨t9, ?_, t6⟩
          rw [t10, t4, hfm]
      · -- still sparse after flush
        next hpromote =>
        rw [hfm] at hpromote
        unfold Inv
        refine ⟨?_, ?_, ?_, ?_, ?_, ?_, ?_, ?_, ?_⟩
        · rw [hfp]; exact hp4
        · rw [hfp]; exact hp16
        · rw [hfp, hfpp]; exact hppl
        · rw [hfpp]; exact hpp25
        · rw [hfm, hfp]; exact hm
        · rw [hfmp, hfpp]; exact hmp
        · rw [hfm]; exact hslf
        · intro _
          refine ⟨?_, hfb, ?_⟩
          · rw [hfm]; omega
          · rw [hft, hfm]
            simp only [List.length_nil, Nat.mul_zero]
            omega
        · intro hst
          rw [hfsp] at hst
          cases hst
    · -- no flush
      next hfl =>
      rw [h1m, h1t] at hfl
      unfold Inv
      refine ⟨?_, ?_, ?_, ?_, ?_, ?_, ?_, ?_, ?_⟩
      · rw [h1p]; exact hp4
      · rw [h1p]; exact hp16
      · rw [h1p, h1pp]; exact hppl
      · rw [h1pp]; exact hpp25
      · rw [h1m, h1p]; exact hm
      · rw [h1mp, h1pp]; exact hmp
      · rw [h1sl, h1m]; exact hsl
      · intro _
        refine ⟨?_, ?_, ?_⟩
        · rw [h1d, h1m]; exact hdata
        · rw [h1b]; exact hbits
        · rw [h1t, h1m]; omega
      · intro hst
        rw [h1sp, hs] at hst
        cases hst
  · simp only [Bool.not_eq_true] at hs
    obtain ⟨hbits56, hlen, htmp⟩ := hde hs
    rw [Add_dense_def h x hs]
    dsimp only
    split
    · -- width promotion 5 → 6
      next hpromo =>
      set hh : HLLPP :=
        { h with
          bitsPerRegister := 6
          data := (List.range h.m).foldl
            (fun nd i => setRegister nd 6 i (getRegister h.data 5 i))
            (List.replicate (h.m * 6 / 8) 0) } with hhh
      have hhp : hh.p = h.p := rfl
      have hhpp : hh.pp = h.pp := rfl
      have hhm : hh.m = h.m := rfl
      have hhmp : hh.mp = h.mp := rfl
      have hhsp : hh.sparse = h.sparse := rfl
      have hhb : hh.bitsPerRegister = 6 := rfl
      have hhsl : hh.sparseLength = h.sparseLength := rfl
      have hht : hh.tmpSet = h.tmpSet := rfl
      have hhd : hh.data.length = h.m * 6 / 8 := by
        rw [hhh]
        dsimp only
        rw [foldl_setRegister_length, List.length_replicate]
      have main : ∀ g : HLLPP, g.p = h.p → g.pp = h.pp → g.m = h.m →
          g.mp = h.mp → g.sparse = h.sparse → g.bitsPerRegister = 6 →
          g.sparseLength = h.sparseLength → g.tmpSet = h.tmpSet →
          g.data.length = h.m * 6 / 8 → Inv g := by
        intro g g1 g2 g3 g4 g5 g6 g7 g8 g9
        unfold Inv
        refine ⟨?_, ?_, ?_, ?_, ?_, ?_, ?_, ?_, ?_⟩
        · rw [g1]; exact hp4
        · rw [g1]; exact hp16
        · rw [g1, g2]; exact hppl
        · rw [g2]; exact hpp25
        · rw [g3, g1]; exact hm
        · rw [g4, g2]; exact hmp
        · rw [g7, g3]; exact hsl
        · intro hst; rw [g5, hs] at hst; cases hst
        · intro _
          refine ⟨Or.inr g6, ?_, ?_⟩
          · rw [g9, g3, g6]
          · rw [g8]; exact htmp
      split
      · exact main _ rfl rfl rfl rfl rfl rfl rfl rfl
          (by dsimp only; rw [setRegister_length]; exact hhd)
      · exact main hh hhp hhpp hhm hhmp hhsp hhb hhsl hht hhd
    · -- no width promotion
      next hpromo =>
      have main2 : ∀ g : HLLPP, g.p = h.p → g.pp = h.pp → g.m = h.m →
          g.mp = h.mp → g.sparse = h.sparse →
          g.bitsPerRegister = h.bitsPerRegister →
          g.sparseLength = h.sparseLength → g.tmpSet = h.tmpSet →
          g.data.length = h.data.length → Inv g := by
        intro g g1 g2 g3 g4 g5 g6 g7 g8 g9
        unfold Inv
        refine ⟨?_, ?_, ?_, ?_, ?_, ?_, ?_, ?_, ?_⟩
        · rw [g1]; exact hp4
        · rw [g1]; exact hp16
        · rw [g1, g2]; exact hppl
        · rw [g2]; exact hpp25
        · rw [g3, g1]; exact hm
        · rw [g4, g2]; exact hmp
        · rw [g7, g3]; exact hsl
        · intro hst; rw [g5, hs] at hst; cases hst
        · intro _
          refine ⟨?_, ?_, ?_⟩
          · rw [g6]; exact hbits56
          · rw [g9, g3, g6]; exact hlen
          · rw [g8]; exact htmp
      split
      · exact main2 _ rfl rfl rfl rfl rfl rfl rfl rfl
          (by dsimp only; rw [setRegister_length])
      · exact main2 h rfl rfl rfl rfl rfl rfl rfl rfl rfl

/-- Every sketch reachable by `Add` calls satisfies the invariant. -/
theorem reachAdd_inv (h : HLLPP) (hr : ReachAdd h) : Inv h := by
  induction hr with
  | init c h hc => exact newWithConfig_inv c h hc
  | add h x hr hx ih => exact add_inv h x ih

/-- **C4** (amended)  During a sparse-mode `Add`, `tmpSet` is flushed into
the store exactly when `32·(|tmpSet|+1) ≥ (6·m)/4` (counting the
just-appended encoding), and the sketch leaves sparse mode exactly when
additionally the post-flush store satisfies `8·|store| ≥ 6·m`.
Consequently every sketch reachable by `Add` calls alone that is still
sparse satisfies `8·|store| < 6·m`.  (The original claim quantified over
`Add` *and* `Count` sequences; `Count` flushes `tmpSet` without the
dense-promotion check and breaks the bound, see the C4 counterexample.) -/
theorem claim4_amended (h : HLLPP) (x : Nat) (hr : ReachAdd h)
    (hs : h.sparse = true) :
    ((Add h x).tmpSet = [] ↔
        6 * h.m / 4 ≤ 4 * (h.tmpSet.length + 1) * 8) ∧
      ((Add h x).sparse = false ↔
        (6 * h.m / 4 ≤ 4 * (h.tmpSet.length + 1) * 8 ∧
          6 * h.m ≤ (flushTmpSet
            { h with tmpSet := h.tmpSet ++ [encodeHash h.p h.pp x] }).data.length
            * 8)) ∧
      ((Add h x).sparse = true →
        8 * (Add h x).data.length < 6 * (Add h x).m) := by
  have hinv := reachAdd_inv h hr
  have hinv2 := add_inv h x hinv
  obtain ⟨_, _, _, _, _, _, _, hsp2, _⟩ := hinv2
  refine ⟨?_, ?_, fun hst => (hsp2 hst).1⟩ <;>
  · rw [Add_sparse_def h x hs]
    dsimp only
    simp only [List.length_append, List.length_cons, List.length_nil,
      Nat.zero_add]
    obtain ⟨hfp, hfpp, hfm, hfmp, hfsp, hfb, hfd, hft⟩ :=
      flushTmpSet_fields
        ({ h with tmpSet := h.tmpSet ++ [encodeHash h.p h.pp x] } : HLLPP)
    by_cases hfl : 6 * h.m / 4 ≤ 4 * (h.tmpSet.length + 1) * 8
    · rw [if_pos hfl]
      rw [hfm]
      by_cases hpro : 6 * h.m ≤ (flushTmpSet
          ({ h with tmpSet := h.tmpSet ++ [encodeHash h.p h.pp x] } : HLLPP)).data.length * 8
      · rw [if_pos hpro]
        have hb0 : ({ h with tmpSet := h.tmpSet ++ [encodeHash h.p h.pp x] }
            : HLLPP).bitsPerRegister = 0 := by
          dsimp only
          exact ((reachAdd_inv h hr).2.2.2.2.2.2.2.1 hs).2.1
        have hts := toNormal_spec _ (hfb.trans hb0)
        first
        | exact iff_of_true hts.2.2.2.2.2.1 hfl
        | exact iff_of_true hts.1 ⟨hfl, hpro⟩
      · rw [if_neg hpro]
        first
        | exact iff_of_true hft hfl
        | · rw [hfsp]
            dsimp only
            exact iff_of_false (by simp [hs]) (fun hcon => hpro hcon.2)
    · rw [if_neg hfl]
      first
      | · dsimp only
          exact iff_of_false (by simp) hfl
      | · dsimp only
          exact iff_of_false (by simp [hs]) (fun hcon => hfl hcon.1)

theorem claim4_amended_witness :
    (((Add ⟨[], [], true, 0, 0, 5, 32, 25, 33554432, false⟩ (2 ^ 59)).tmpSet
          = [] ↔
        6 * (32 : Nat) / 4 ≤ 4 * (0 + 1) * 8) ∧
      ((Add ⟨[], [], true, 0, 0, 5, 32, 25, 33554432, false⟩
            (2 ^ 59)).sparse = false ↔
        (6 * (32 : Nat) / 4 ≤ 4 * (0 + 1) * 8 ∧
          6 * 32 ≤ (flushTmpSet
            ⟨[], [] ++ [encodeHash 5 25 (2 ^ 59)], true, 0, 0, 5, 32, 25,
              33554432, false⟩).data.length * 8)) ∧
      ((Add ⟨[], [], true, 0, 0, 5, 32, 25, 33554432, false⟩
            (2 ^ 59)).sparse = true →
        8 * (Add ⟨[], [], true, 0, 0, 5, 32, 25, 33554432, false⟩
            (2 ^ 59)).data.length <
          6 * (Add ⟨[], [], true, 0, 0, 5, 32, 25, 33554432, false⟩
            (2 ^ 59)).m)) := by
  have h0 := claim4_amended ⟨[], [], true, 0, 0, 5, 32, 25, 33554432, false⟩
    (2 ^ 59)
    (ReachAdd.init
      { hasHasher := true, hasherSize := 20, precision := 5,
        sparsePrecision := 25 } _ (by decide))
    rfl
  exact h0

/-- **C10** Dense-mode indexing safety: for a register file of `m = 2^p`
registers at width `w ∈ {5, 6}` packed into `m·w/8` bytes, the index dense
`Add` derives from any 64-bit hash is `< m`; the byte offset a register
access touches is in range, including the second byte in the two-byte
straddle case (`regByte_lt` covers both byte offsets of `getRegister` and
`setRegister`, whose offset arithmetic is identical); and the
width-promotion copy of `Add` fills exactly `m·6/8` bytes, so the indexing
error branch is unreachable. -/
theorem claim10_dense_safety (p w m i x : Nat) (d : List Nat) (hp4 : 4 ≤ p)
    (hp16 : p ≤ 16) (hw : w = 5 ∨ w = 6) (hm : m = 2 ^ p) (hi : i < m)
    (hx : x < 2 ^ 64) :
    sliceBits64 x 63 (64 - p) < m ∧ m * w % 8 = 0 ∧
      i * w / 8 < m * w / 8 ∧
      (¬ w ≤ 8 - i * w % 8 → i * w / 8 + 1 < m * w / 8) ∧
      ((List.range m).foldl
          (fun nd j => setRegister nd 6 j (getRegister d 5 j))
          (List.replicate (m * 6 / 8) 0)).length = m * 6 / 8 := by
  have hdvd : m * w % 8 = 0 := by
    have h8 : m = 8 * 2 ^ (p - 3) := by
      rw [hm, show p = 3 + (p - 3) from by omega, pow_add]
      norm_num
    rw [h8, mul_assoc]
    exact Nat.mul_mod_right 8 _
  have hreg := regByte_lt w m i (by omega) (by omega) hi hdvd
  refine ⟨?_, hdvd, hreg.1, hreg.2, ?_⟩
  · rw [hm, sliceBits64_spec x 63 (64 - p) (le_refl 63) hx,
      show 63 + 1 - (64 - p) = p from by omega]
    exact Nat.mod_lt _ (Nat.pos_pow_of_pos _ (by norm_num))
  · rw [foldl_setRegister_length, List.length_replicate]

theorem claim10_dense_safety_witness :
    sliceBits64 (2 ^ 62) 63 (64 - 4) < 16 ∧ 16 * 6 % 8 = 0 ∧
      1 * 6 / 8 < 16 * 6 / 8 ∧
      (¬ 6 ≤ 8 - 1 * 6 % 8 → 1 * 6 / 8 + 1 < 16 * 6 / 8) ∧
      ((List.range 16).foldl
          (fun nd j => setRegister nd 6 j (getRegister [] 5 j))
          (List.replicate (16 * 6 / 8) 0)).length = 16 * 6 / 8 :=
  claim10_dense_safety 4 6 16 1 (2 ^ 62) [] (by norm_num) (by norm_num)
    (Or.inr rfl) (by norm_num) (by norm_num) (by norm_num)

theorem newWithConfig_eq (c : Config) :
    NewWithConfig c =
      (if (if c.precision = 0 then 14 else c.precision) < 4 ∨
          16 < (if c.precision = 0 then 14 else c.precision) ∨
          (if c.sparsePrecision = 0 then 25 else c.sparsePrecision) <
            (if c.precision = 0 then 14 else c.precision) ∨
          25 < (if c.sparsePrecision = 0 then 25 else c.sparsePrecision) then
        none
      else if (if c.hasHasher = true then c.hasherSize else 20) < 8 then none
      else
        some
          { data := [], tmpSet := [], sparse := true, sparseLength := 0,
            bitsPerRegister := 0,
            p := if c.precision = 0 then 14 else c.precision,
            m := 2 ^ (if c.precision = 0 then 14 else c.precision),
            pp := if c.sparsePrecision = 0 then 25 else c.sparsePrecision,
            mp := 2 ^ (if c.sparsePrecision = 0 then 25 else c.sparsePrecision),
            defaultHasher := !c.hasHasher }) := rfl

/-- **C7** `Unmarshal` succeeds exactly when the blob is at least 15 bytes,
the version field is 1, the header length equals the blob length, the
stored `p`/`p'` pass `NewWithConfig`'s range check (after the `0 ↦
default` substitution), and the default-hasher flag bit is set;
`UnmarshalWithHasher` is the same except the flag bit must be clear and
the supplied hasher's size must be at least 8.  A blob passing these
checks is accepted, and its payload (everything after byte 14) is taken
verbatim — its length is never validated. -/
theorem claim7_unmarshal_errors (data : List Nat) (hsize : Nat) :
    ((Unmarshal data).isOk = true ↔
        ¬ (data.length < 15 ∨ readU16 data 0 ≠ 1 ∨
          readU32 data 2 ≠ data.length ∨
          ((if data.getD 8 0 = 0 then 14 else data.getD 8 0) < 4 ∨
            16 < (if data.getD 8 0 = 0 then 14 else data.getD 8 0) ∨
            (if data.getD 9 0 = 0 then 25 else data.getD 9 0) <
              (if data.getD 8 0 = 0 then 14 else data.getD 8 0) ∨
            25 < (if data.getD 9 0 = 0 then 25 else data.getD 9 0)) ∨
          readU16 data 6 &&& 2 = 0)) ∧
      ((UnmarshalWithHasher data hsize).isOk = true ↔
        ¬ (data.length < 15 ∨ readU16 data 0 ≠ 1 ∨
          readU32 data 2 ≠ data.length ∨
          ((if data.getD 8 0 = 0 then 14 else data.getD 8 0) < 4 ∨
            16 < (if data.getD 8 0 = 0 then 14 else data.getD 8 0) ∨
            (if data.getD 9 0 = 0 then 25 else data.getD 9 0) <
              (if data.getD 8 0 = 0 then 14 else data.getD 8 0) ∨
            25 < (if data.getD 9 0 = 0 then 25 else data.getD 9 0)) ∨
          hsize < 8 ∨ ¬ readU16 data 6 &&& 2 = 0)) ∧
      (unmarshal data hsize).toOption.map (fun h => h.data) =
        (unmarshal data hsize).toOption.map (fun _ => data.drop 15) := by
  by_cases h1 : data.length < 15
  · have hu : ∀ hs2 : Nat, unmarshal data hs2 = .error "data too short" := by
      intro hs2
      unfold unmarshal
      rw [if_pos h1]
    refine ⟨?_, ?_, ?_⟩
    · unfold Unmarshal
      rw [hu 20]
      exact iff_of_false (by simp [Except.isOk, Except.toBool]) (not_not_intro (Or.inl h1))
    · unfold UnmarshalWithHasher
      rw [hu hsize]
      exact iff_of_false (by simp [Except.isOk, Except.toBool]) (not_not_intro (Or.inl h1))
    · rw [hu hsize]
      rfl
  · by_cases h2 : readU16 data 0 = 1
    · by_cases h3 : readU32 data 2 = data.length
      · by_cases h4 : (if data.getD 8 0 = 0 then 14 else data.getD 8 0) < 4 ∨
            16 < (if data.getD 8 0 = 0 then 14 else data.getD 8 0) ∨
            (if data.getD 9 0 = 0 then 25 else data.getD 9 0) <
              (if data.getD 8 0 = 0 then 14 else data.getD 8 0) ∨
            25 < (if data.getD 9 0 = 0 then 25 else data.getD 9 0)
        · -- precision rejected: NewWithConfig fails for every hasher size
          have hu : ∀ hs2 : Nat,
              unmarshal data hs2 = .error "invalid precision or hasher" := by
            intro hs2
            unfold unmarshal
            rw [if_neg h1, if_neg (not_not_intro h2), if_neg (not_not_intro h3),
              newWithConfig_eq]
            rw [if_pos h4]
          refine ⟨?_, ?_, ?_⟩
          · unfold Unmarshal
            rw [hu 20]
            exact iff_of_false (by simp [Except.isOk, Except.toBool]) (not_not_intro (Or.inr (Or.inr (Or.inr (Or.inl h4)))))
          · unfold UnmarshalWithHasher
            rw [hu hsize]
            exact iff_of_false (by simp [Except.isOk, Except.toBool]) (not_not_intro (Or.inr (Or.inr (Or.inr (Or.inl h4)))))
          · rw [hu hsize]
            rfl
        · by_cases h5 : hsize < 8
          · -- hasher too small: only UnmarshalWithHasher is affected
            have hu : unmarshal data hsize =
                .error "invalid precision or hasher" := by
              unfold unmarshal
              rw [if_neg h1, if_neg (not_not_intro h2), if_neg (not_not_intro h3),
                newWithConfig_eq]
              rw [if_neg h4, if_pos (by simpa using h5)]
            refine ⟨?_, ?_, ?_⟩
            · -- Unmarshal uses the sha1 size 20, which passes
              have hu20 : unmarshal data 20 = .ok
                  { data := data.drop 15,
                    tmpSet := [],
                    sparse := decide (0 < readU16 data 6 &&& 1),
                    sparseLength := readU32 data 10,
                    bitsPerRegister := data.getD 14 0,
                    p := if data.getD 8 0 = 0 then 14 else data.getD 8 0,
                    m := 2 ^ (if data.getD 8 0 = 0 then 14 else data.getD 8 0),
                    pp := if data.getD 9 0 = 0 then 25 else data.getD 9 0,
                    mp := 2 ^ (if data.getD 9 0 = 0 then 25 else data.getD 9 0),
                    defaultHasher := decide (0 < readU16 data 6 &&& 2) } := by
                unfold unmarshal
                rw [if_neg h1, if_neg (not_not_intro h2),
                  if_neg (not_not_intro h3), newWithConfig_eq]
                rw [if_neg h4, if_neg (by norm_num)]
              unfold Unmarshal
              rw [hu20]
              by_cases hflag : readU16 data 6 &&& 2 = 0
              · rw [show decide (0 < readU16 data 6 &&& 2) = false from by
                  simp [hflag]]
                exact iff_of_false (by simp [Except.isOk, Except.toBool])
                  (not_not_intro (Or.inr (Or.inr (Or.inr (Or.inr hflag)))))
              · rw [show decide (0 < readU16 data 6 &&& 2) = true from by
                  simp; omega]
                exact iff_of_true (by simp [Except.isOk, Except.toBool])
                  (by
                    rintro (hcon | hcon | hcon | hcon | hcon)
                    · exact h1 hcon
                    · exact hcon h2
                    · exact hcon h3
                    · exact h4 hcon
                    · exact hflag hcon)
            · unfold UnmarshalWithHasher
              rw [hu]
              exact iff_of_false (by simp [Except.isOk, Except.toBool]) (not_not_intro (Or.inr (Or.inr (Or.inr (Or.inr (Or.inl h5))))))
            · rw [hu]
              rfl
          · -- all header checks pass
            have hu : ∀ hs2 : Nat, ¬ hs2 < 8 → unmarshal data hs2 = .ok
                { data := data.drop 15,
                  tmpSet := [],
                  sparse := decide (0 < readU16 data 6 &&& 1),
                  sparseLength := readU32 data 10,
                  bitsPerRegister := data.getD 14 0,
                  p := if data.getD 8 0 = 0 then 14 else data.getD 8 0,
                  m := 2 ^ (if data.getD 8 0 = 0 then 14 else data.getD 8 0),
                  pp := if data.getD 9 0 = 0 then 25 else data.getD 9 0,
                  mp := 2 ^ (if data.getD 9 0 = 0 then 25 else data.getD 9 0),
                  defaultHasher := decide (0 < readU16 data 6 &&& 2) } := by
              intro hs2 hs28
              unfold unmarshal
              rw [if_neg h1, if_neg (not_not_intro h2), if_neg (not_not_intro h3),
                newWithConfig_eq]
              rw [if_neg h4, if_neg (by simpa using hs28)]
            refine ⟨?_, ?_, ?_⟩
            · unfold Unmarshal
              rw [hu 20 (by norm_num)]
              by_cases hflag : readU16 data 6 &&& 2 = 0
              · rw [show decide (0 < readU16 data 6 &&& 2) = false from by
                  simp [hflag]]
                exact iff_of_false (by simp [Except.isOk, Except.toBool])
                  (not_not_intro (Or.inr (Or.inr (Or.inr (Or.inr hflag)))))
              · rw [show decide (0 < readU16 data 6 &&& 2) = true from by
                  simp; omega]
                exact iff_of_true (by simp [Except.isOk, Except.toBool])
                  (by
                    rintro (hcon | hcon | hcon | hcon | hcon)
                    · exact h1 hcon
                    · exact hcon h2
                    · exact hcon h3
                    · exact h4 hcon
                    · exact hflag hcon)
            · unfold UnmarshalWithHasher
              rw [hu hsize h5]
              by_cases hflag : readU16 data 6 &&& 2 = 0
              · rw [show decide (0 < readU16 data 6 &&& 2) = false from by
                  simp [hflag]]
                exact iff_of_true (by simp [Except.isOk, Except.toBool])
                  (by
                    rintro (hcon | hcon | hcon | hcon | hcon | hcon)
                    · exact h1 hcon
                    · exact hcon h2
                    · exact hcon h3
                    · exact h4 hcon
                    · exact h5 hcon
                    · exact hcon hflag)
              · rw [show decide (0 < readU16 data 6 &&& 2) = true from by
                  simp; omega]
                exact iff_of_false (by simp [Except.isOk, Except.toBool])
                  (not_not_intro (Or.inr (Or.inr (Or.inr (Or.inr (Or.inr hflag))))))
            · rw [hu hsize h5]
              rfl
      · have hu : ∀ hs2 : Nat,
            unmarshal data hs2 = .error "length mismatch" := by
          intro hs2
          unfold unmarshal
          rw [if_neg h1, if_neg (not_not_intro h2), if_pos h3]
        refine ⟨?_, ?_, ?_⟩
        · unfold Unmarshal
          rw [hu 20]
          exact iff_of_false (by simp [Except.isOk, Except.toBool]) (not_not_intro (Or.inr (Or.inr (Or.inl h3))))
        · unfold UnmarshalWithHasher
          rw [hu hsize]
          exact iff_of_false (by simp [Except.isOk, Except.toBool]) (not_not_intro (Or.inr (Or.inr (Or.inl h3))))
        · rw [hu hsize]
          rfl
    · have hu : ∀ hs2 : Nat, unmarshal data hs2 = .error "unknown version" := by
        intro hs2
        unfold unmarshal
        rw [if_neg h1, if_pos h2]
      refine ⟨?_, ?_, ?_⟩
      · unfold Unmarshal
        rw [hu 20]
        exact iff_of_false (by simp [Except.isOk, Except.toBool]) (not_not_intro (Or.inr (Or.inl h2)))
      · unfold UnmarshalWithHasher
        rw [hu hsize]
        exact iff_of_false (by simp [Except.isOk, Except.toBool]) (not_not_intro (Or.inr (Or.inl h2)))
      · rw [hu hsize]
        rfl

/-- Deserialising the exact byte image of a well-formed sketch restores it
field for field. -/
theorem unmarshal_marshalBytes (g : HLLPP) (hsize : Nat)
    (hp4 : 4 ≤ g.p) (hp16 : g.p ≤ 16) (hppl : g.p ≤ g.pp) (hpp25 : g.pp ≤ 25)
    (hm : g.m = 2 ^ g.p) (hmp : g.mp = 2 ^ g.pp) (ht : g.tmpSet = [])
    (hd : g.data.length + 15 < 2 ^ 32) (hslb : g.sparseLength < 2 ^ 32)
    (hb : g.bitsPerRegister < 256) (h8 : 8 ≤ hsize) :
    unmarshal (marshalBytes g) hsize = .ok g := by
  obtain ⟨gd, gt, gs, gsl, gb, gp, gm, gpp, gmp, gdh⟩ := g
  simp only at hp4 hp16 hppl hpp25 hm hmp ht hd hslb hb
  subst ht
  subst hm
  subst hmp
  have hLval : (15 + gd.length) % 2 ^ 32 = 15 + gd.length :=
    Nat.mod_eq_of_lt (by omega)
  have hSLval : gsl % 2 ^ 32 = gsl := Nat.mod_eq_of_lt hslb
  have hF3 : (if gs then 1 else 0) + (if gdh then 2 else 0) ≤ 3 := by
    split <;> split <;> norm_num
  have hmb : marshalBytes ⟨gd, [], gs, gsl, gb, gp, 2 ^ gp, gpp, 2 ^ gpp, gdh⟩ =
      0 :: 1 :: ((15 + gd.length) / 2 ^ 24 % 256) ::
      ((15 + gd.length) / 2 ^ 16 % 256) :: ((15 + gd.length) / 2 ^ 8 % 256) ::
      ((15 + gd.length) % 256) :: 0 ::
      ((if gs then 1 else 0) + (if gdh then 2 else 0)) :: gp :: gpp ::
      (gsl / 2 ^ 24 % 256) :: (gsl / 2 ^ 16 % 256) :: (gsl / 2 ^ 8 % 256) ::
      (gsl % 256) :: gb :: gd := by
    simp only [marshalBytes, putU16, putU32, List.cons_append, List.nil_append]
    rw [hLval, hSLval,
      Nat.mod_eq_of_lt (show gp < 256 from by omega),
      Nat.mod_eq_of_lt (show gpp < 256 from by omega),
      Nat.mod_eq_of_lt (show gb < 256 from hb),
      Nat.div_eq_of_lt (show (if gs then 1 else 0) + (if gdh then 2 else 0)
        < 2 ^ 8 from by omega),
      Nat.mod_eq_of_lt (show (if gs then 1 else 0) + (if gdh then 2 else 0)
        < 256 from by omega),
      Nat.div_eq_of_lt (show (1 : Nat) < 2 ^ 8 from by norm_num)]
  rw [hmb]
  generalize hB2 : (15 + gd.length) / 2 ^ 24 % 256 = b2
  generalize hB3 : (15 + gd.length) / 2 ^ 16 % 256 = b3
  generalize hB4 : (15 + gd.length) / 2 ^ 8 % 256 = b4
  generalize hB5 : (15 + gd.length) % 256 = b5
  generalize hS0 : gsl / 2 ^ 24 % 256 = s0
  generalize hS1 : gsl / 2 ^ 16 % 256 = s1
  generalize hS2 : gsl / 2 ^ 8 % 256 = s2
  generalize hS3 : gsl % 256 = s3
  generalize hFd : (if gs = true then 1 else 0) + (if gdh = true then 2 else 0) = F
  have hlen : (0 :: 1 :: b2 :: b3 :: b4 :: b5 :: 0 :: F :: gp :: gpp :: s0 :: s1 :: s2 :: s3 :: gb :: gd).length = 15 + gd.length := by
    simp only [List.length_cons]
    omega
  unfold unmarshal
  rw [if_neg (by rw [hlen]; omega)]
  rw [if_neg (not_not_intro (show readU16 (0 :: 1 :: b2 :: b3 :: b4 :: b5 :: 0 :: F :: gp :: gpp :: s0 :: s1 :: s2 :: s3 :: gb :: gd) 0 = 1 from by
    show 0 * 2 ^ 8 + 1 = 1
    norm_num))]
  rw [if_neg (not_not_intro (show readU32 (0 :: 1 :: b2 :: b3 :: b4 :: b5 :: 0 :: F :: gp :: gpp :: s0 :: s1 :: s2 :: s3 :: gb :: gd) 2 = (0 :: 1 :: b2 :: b3 :: b4 :: b5 :: 0 :: F :: gp :: gpp :: s0 :: s1 :: s2 :: s3 :: gb :: gd).length from by
    rw [hlen]
    show b2 * 2 ^ 24 + b3 * 2 ^ 16 + b4 * 2 ^ 8 + b5 = 15 + gd.length
    omega))]
  have hnwc : NewWithConfig
      { hasHasher := true, hasherSize := hsize,
        precision := List.getD (0 :: 1 :: b2 :: b3 :: b4 :: b5 :: 0 :: F :: gp :: gpp :: s0 :: s1 :: s2 :: s3 :: gb :: gd) 8 0,
        sparsePrecision := List.getD (0 :: 1 :: b2 :: b3 :: b4 :: b5 :: 0 :: F :: gp :: gpp :: s0 :: s1 :: s2 :: s3 :: gb :: gd) 9 0 } =
      some ⟨[], [], true, 0, 0, gp, 2 ^ gp, gpp, 2 ^ gpp, false⟩ := by
    rw [show List.getD (0 :: 1 :: b2 :: b3 :: b4 :: b5 :: 0 :: F :: gp :: gpp :: s0 :: s1 :: s2 :: s3 :: gb :: gd) 8 0 = gp from rfl,
      show List.getD (0 :: 1 :: b2 :: b3 :: b4 :: b5 :: 0 :: F :: gp :: gpp :: s0 :: s1 :: s2 :: s3 :: gb :: gd) 9 0 = gpp from rfl]
    rw [newWithConfig_eq]
    dsimp only
    rw [show (if gp = 0 then 14 else gp) = gp from if_neg (by omega),
      show (if gpp = 0 then 25 else gpp) = gpp from if_neg (by omega),
      show (if true = true then hsize else 20) = hsize from rfl]
    rw [if_neg (by omega), if_neg (by omega)]
    rfl
  rw [hnwc]
  dsimp only
  simp only [Except.ok.injEq]
  refine HLLPP.mk.injEq .. ▸ ⟨?_, rfl, ?_, ?_, ?_, rfl, rfl, rfl, rfl, ?_⟩
  · -- payload is restored verbatim
    rfl
  · -- sparse flag
    show decide (0 < (0 * 2 ^ 8 + F) &&& 1) = gs
    rw [← hFd]
    cases gs <;> cases gdh <;> rfl
  · -- sparseLength
    show s0 * 2 ^ 24 + s1 * 2 ^ 16 + s2 * 2 ^ 8 + s3 = gsl
    omega
  · -- bitsPerRegister
    rfl
  · -- default-hasher flag
    show decide (0 < (0 * 2 ^ 8 + F) &&& 2) = gdh
    rw [← hFd]
    cases gs <;> cases gdh <;> rfl

/-- **C5** Serialization round trip: for every sketch reachable by `Add`
calls, `Marshal` followed by the matching deserialiser (`Unmarshal` for the
default hasher, `UnmarshalWithHasher` otherwise, with any hasher of size at
least 8) returns a sketch whose entire internal state — data, tmpSet,
sparse flag, sparseLength, bitsPerRegister, p, p', m, m', defaultHasher —
equals the post-`Marshal` state of the original (`Marshal` first flushes
`tmpSet` when sparse); since `Count` is a function of that state, the
restored sketch also has the same `Count()`. -/
theorem claim5_marshal_roundtrip (h : HLLPP) (hsize : Nat) (hr : ReachAdd h)
    (h8 : 8 ≤ hsize) :
    (h.defaultHasher = true → Unmarshal (Marshal h) = .ok (marshalState h)) ∧
      (h.defaultHasher = false →
        UnmarshalWithHasher (Marshal h) hsize = .ok (marshalState h)) := by
  obtain ⟨hp4, hp16, hppl, hpp25, hm, hmp, hsl, hsp, hde⟩ := reachAdd_inv h hr
  have hm16 : h.m ≤ 2 ^ 16 := by
    rw [hm]
    exact Nat.pow_le_pow_right (by norm_num) hp16
  have hgdh : (marshalState h).defaultHasher = h.defaultHasher := by
    unfold marshalState
    split
    · exact (flushTmpSet_fields h).2.2.2.2.2.2.1
    · rfl
  have hum : ∀ hs2 : Nat, 8 ≤ hs2 →
      unmarshal (marshalBytes (marshalState h)) hs2 =
        .ok (marshalState h) := by
    intro hs2 hs28
    by_cases hs : h.sparse = true
    · obtain ⟨hdata, hbits, htmp⟩ := hsp hs
      by_cases htnil : h.tmpSet = []
      · have hg : marshalState h = h := by
          unfold marshalState
          rw [if_pos hs, flushTmpSet_nil h htnil]
        rw [hg]
        exact unmarshal_marshalBytes h hs2 hp4 hp16 hppl hpp25 hm hmp htnil
          (by omega) (by omega) (by omega) hs28
      · have hg : marshalState h = flushTmpSet h := by
          unfold marshalState
          rw [if_pos hs]
        obtain ⟨hfp, hfpp, hfm, hfmp, hfsp, hfb, hfd, hft⟩ :=
          flushTmpSet_fields h
        have hszf := flushTmpSet_size h htnil
        rw [hg]
        refine unmarshal_marshalBytes (flushTmpSet h) hs2 ?_ ?_ ?_ ?_ ?_ ?_
          hft ?_ ?_ ?_ hs28
        · rw [hfp]; exact hp4
        · rw [hfp]; exact hp16
        · rw [hfp, hfpp]; exact hppl
        · rw [hfpp]; exact hpp25
        · rw [hfm, hfp]; exact hm
        · rw [hfmp, hfpp]; exact hmp
        · omega
        · omega
        · rw [hfb, hbits]
          norm_num
    · simp only [Bool.not_eq_true] at hs
      obtain ⟨hbits56, hlen, htmp⟩ := hde hs
      have hg : marshalState h = h := by
        unfold marshalState
        rw [if_neg (by simp [hs])]
      rw [hg]
      have hd6 : h.data.length ≤ h.m * 6 / 8 := by
        rw [hlen]
        rcases hbits56 with h5 | h6
        · rw [h5]
          exact Nat.div_le_div_right (Nat.mul_le_mul_left h.m (by norm_num))
        · rw [h6]
      have hd6b : h.m * 6 / 8 ≤ 2 ^ 16 * 6 / 8 :=
        Nat.div_le_div_right (Nat.mul_le_mul_right 6 hm16)
      refine unmarshal_marshalBytes h hs2 hp4 hp16 hppl hpp25 hm hmp htmp
        ?_ ?_ ?_ hs28
      · have : (2 : Nat) ^ 16 * 6 / 8 = 49152 := by norm_num
        omega
      · omega
      · rcases hbits56 with h5 | h6
        · rw [h5]; norm_num
        · rw [h6]; norm_num
  refine ⟨?_, ?_⟩
  · intro hdh
    have hgd : (marshalState h).defaultHasher = true := by
      rw [hgdh]
      exact hdh
    unfold Unmarshal
    rw [show Marshal h = marshalBytes (marshalState h) from rfl]
    rw [hum 20 (by norm_num)]
    dsimp only
    rw [hgd]
    rfl
  · intro hdh
    have hgd : (marshalState h).defaultHasher = false := by
      rw [hgdh]
      exact hdh
    unfold UnmarshalWithHasher
    rw [show Marshal h = marshalBytes (marshalState h) from rfl]
    rw [hum hsize h8]
    dsimp only
    rw [hgd]
    rfl

theorem claim5_marshal_roundtrip_witness :
    ((⟨[], [], true, 0, 0, 14, 16384, 25, 33554432, true⟩ : HLLPP).defaultHasher
          = true →
        Unmarshal (Marshal ⟨[], [], true, 0, 0, 14, 16384, 25, 33554432, true⟩)
          = .ok (marshalState
            ⟨[], [], true, 0, 0, 14, 16384, 25, 33554432, true⟩)) ∧
      ((⟨[], [], true, 0, 0, 14, 16384, 25, 33554432, true⟩ : HLLPP).defaultHasher
          = false →
        UnmarshalWithHasher
            (Marshal ⟨[], [], true, 0, 0, 14, 16384, 25, 33554432, true⟩) 8
          = .ok (marshalState
            ⟨[], [], true, 0, 0, 14, 16384, 25, 33554432, true⟩)) :=
  claim5_marshal_roundtrip ⟨[], [], true, 0, 0, 14, 16384, 25, 33554432, true⟩ 8
    (ReachAdd.init
      { hasHasher := false, hasherSize := 0, precision := 0,
        sparsePrecision := 0 } _ (by decide))
    (by norm_num)

theorem claim1_decode_encode_witness :
    decodeHash 14 25 (encodeHash 14 25 (2 ^ 60)) 14 =
        (sliceBits64 (2 ^ 60) 63 (64 - 14),
          rho ((2 ^ 60 <<< 14) % 2 ^ 64 ||| 1 <<< (14 - 1))) ∧
      sliceBits64 (2 ^ 60) 63 (64 - 14) = 2 ^ 60 / 2 ^ (64 - 14) :=
  claim1_decode_encode 14 25 (2 ^ 60) (by norm_num) (by norm_num) (by norm_num)
    (by norm_num) (by norm_num)

theorem claim2_amended_witness : 1 / 2 ^ (64 - 25) ≤ 0 / 2 ^ (64 - 25) :=
  claim2_amended_sorted_by_index 14 25 1 0 (by norm_num) (by norm_num)
    (by norm_num) (by norm_num) (by norm_num) (by norm_num) (by decide) (by decide)

theorem claim9_amended_witness :
    sliceBits32 (encodeHash 14 25 0) 6 1 = sparseRank 25 0 ∧
      sparseRank 25 0 ≤ 64 - 25 + 1 ∧ 64 - 25 + 1 ≤ 61 ∧ 64 - 25 + 1 < 64 ∧
      encodeHash 14 25 0 >>> 7 = 0 / 2 ^ (64 - 25) :=
  claim9_amended_rank_bounded 14 25 0 (by norm_num) (by norm_num) (by norm_num)
    (by norm_num) (by norm_num) (by decide)

/-- **C3** The claimed sparse-store invariant fails on a concrete run: at
`p = 4`, `p' = 25`, adding the hashes `2^60 + 2^39` and then `2^60` leaves a
sparse sketch whose delta-decoded store is `[268435537, 4194306]`, which is
not strictly increasing as 32-bit values (the second entry is smaller than
the first).  The cause: `flushTmpSet` sorts `tmpSet` by raw encoded value,
but flagged (odd) and unflagged (even) words do not sort by `p'`-index, so
the merge emits the store out of value order and the writer then encodes a
wrapped (negative) uint32 delta.  This contradicts the comment in sparse.go
("tmpSet is sorted by index") and breaks the strictly-increasing store
shape. -/
theorem claim3_not_increasing :
    (NewWithConfig
          { hasHasher := true, hasherSize := 20, precision := 4,
            sparsePrecision := 25 }).map
        (fun h0 =>
          let h2 := Add (Add h0 (2 ^ 60 + 2 ^ 39)) (2 ^ 60)
          (h2.sparse, decodeStream h2.data)) =
      some (true, [268435537, 4194306]) ∧ ¬ (268435537 < 4194306) := by
  exact ⟨by decide, by decide⟩

/-- **C4** counterexample to "after every operation completes, a sketch still
in Sparse mode satisfies 8·|sparseStore| < 6·m": at `p = 5` (`m = 32`),
`p' = 25`, adding the five hashes `(2i−1)·2^59` and then calling `Count`
leaves a sparse sketch whose store occupies 24 bytes, and `8·24 = 192 =
6·32`.  `Count` flushes `tmpSet` without performing `Add`'s post-flush
dense-promotion check. -/
theorem claim4_counterexample :
    (NewWithConfig
          { hasHasher := true, hasherSize := 20, precision := 5,
            sparsePrecision := 25 }).map
        (fun h0 =>
          let hc := countStep (Add (Add (Add (Add (Add h0 (2 ^ 59))
            (3 * 2 ^ 59)) (5 * 2 ^ 59)) (7 * 2 ^ 59)) (9 * 2 ^ 59))
          (hc.sparse, hc.data.length, hc.m)) = some (true, 24, 32) ∧
      ¬ (8 * 24 < 6 * 32) := by
  exact ⟨by decide, by decide⟩

end Shape

end HLLPP
